import Mathlib

/-!
# Verification of the chrono-claw security-mediation core

Shallow embedding of the security core of the chrono-claw repository:
the tool policy resolver, the SSRF-safe fetch guard, the outbound DLP
redactor and the static skill scanner, together with proofs of the
behavioural claims stated about them.

The outbound payload module (`redactOutboundPayload`, `redactMediaUrl`,
`redactChannelDataStrings`) is embedded from the repository source.
The remaining components (`filterToolsByPolicy`, `resolveSubagentToolPolicy`,
`fetchWithSsrFGuard`, `redactSensitiveText`, the skill scanner rules) are
present in the repository only through their test suites and callers; their
defining modules are not in the source tree, so they are modelled from the
specification, as marked on each definition.
-/

namespace ChronoClaw

/-! ## Tool policy resolver

`src/agents/pi-tools.policy.ts` is not in the source tree (only its tests
in the security suite are), so the resolver is modelled from the spec.
-/

/-- A callable tool; the resolver only ever operates on the name. -/
structure AgentTool where
  name : String
deriving DecidableEq, Repr

/-- A tool policy: an optional allow list and a deny list of tool names. -/
structure ToolPolicy where
  allow : Option (List String) := none
  deny : List String := []
deriving DecidableEq, Repr

/-- Modelled from the spec: `filterToolsByPolicy` keeps a tool when its name
matches the allow list (a missing allow list or a wildcard entry admits every
name) and is not in the deny list; deny always wins. -/
def filterToolsByPolicy (tools : List AgentTool) (policy : ToolPolicy) :
    List AgentTool :=
  tools.filter fun t =>
    (match policy.allow with
     | none => true
     | some a => a.contains "*" || a.contains t.name)
    && !(policy.deny.contains t.name)

/-- The fixed, non-overridable subagent deny set (session/admin management
tools), as exercised by the trust-tier test suite. -/
def DEFAULT_SUBAGENT_TOOL_DENY : List String :=
  ["sessions_list", "sessions_history", "sessions_send", "sessions_spawn",
   "gateway", "agents_list", "whatsapp_login", "session_status", "cron",
   "memory_search", "memory_get"]

/-- Modelled from the spec: `resolveSubagentToolPolicy` layers the fixed
subagent deny set on top of any base policy; the fixed set is appended to
the deny list and no override can remove it. -/
def resolveSubagentToolPolicy (base : Option ToolPolicy) : ToolPolicy :=
  { allow := base.bind (·.allow)
    deny := ((base.map (·.deny)).getD []) ++ DEFAULT_SUBAGENT_TOOL_DENY }

theorem contains_true_iff (l : List String) (x : String) :
    l.contains x = true ↔ x ∈ l := List.elem_iff

theorem contains_eq_of_perm {l₁ l₂ : List String} (p : l₁.Perm l₂)
    (x : String) : l₁.contains x = l₂.contains x := by
  by_cases hx : x ∈ l₁
  · rw [(contains_true_iff l₁ x).mpr hx, (contains_true_iff l₂ x).mpr (p.mem_iff.mp hx)]
  · cases hc₁ : l₁.contains x with
    | true => exact absurd ((contains_true_iff l₁ x).mp hc₁) hx
    | false =>
      cases hc₂ : l₂.contains x with
      | true =>
        exact absurd (p.mem_iff.mpr ((contains_true_iff l₂ x).mp hc₂)) hx
      | false => rfl

/-- C5: tool policy resolution is deterministic and order-independent in its
inputs (permuting the allow or deny list leaves the resolved set unchanged),
and deny always wins: a name in the deny list never appears in the resolved
set, in particular a name present in both allow and deny is excluded. -/
theorem filterToolsByPolicy_order_independent_deny_wins :
    (∀ (tools : List AgentTool) (a₁ a₂ d₁ d₂ : List String),
        a₁.Perm a₂ → d₁.Perm d₂ →
        filterToolsByPolicy tools ⟨some a₁, d₁⟩
          = filterToolsByPolicy tools ⟨some a₂, d₂⟩) ∧
    (∀ (tools : List AgentTool) (policy : ToolPolicy) (t : AgentTool),
        t.name ∈ policy.deny → t ∉ filterToolsByPolicy tools policy) := by
  constructor
  · intro tools a₁ a₂ d₁ d₂ ha hd
    unfold filterToolsByPolicy
    apply List.filter_congr
    intro t _
    dsimp only
    simp only [contains_eq_of_perm ha, contains_eq_of_perm hd]
  · intro tools policy t hd hmem
    have h := List.of_mem_filter hmem
    simp only [Bool.and_eq_true, Bool.not_eq_true'] at h
    have hc := (contains_true_iff policy.deny t.name).mpr hd
    rw [h.2] at hc
    exact absurd hc (by decide)

/-- Concrete instance of C5: permuting allow/deny lists leaves the resolved
set unchanged, and a tool in both allow and deny is excluded. -/
theorem filterToolsByPolicy_order_independent_deny_wins_witness :
    filterToolsByPolicy [⟨"exec"⟩, ⟨"read"⟩] ⟨some ["read", "exec"], ["exec"]⟩
      = filterToolsByPolicy [⟨"exec"⟩, ⟨"read"⟩] ⟨some ["exec", "read"], ["exec"]⟩
    ∧ (⟨"exec"⟩ : AgentTool)
        ∉ filterToolsByPolicy [⟨"exec"⟩, ⟨"read"⟩] ⟨some ["read", "exec"], ["exec"]⟩ :=
  ⟨filterToolsByPolicy_order_independent_deny_wins.1
      [⟨"exec"⟩, ⟨"read"⟩] ["read", "exec"] ["exec", "read"] ["exec"] ["exec"]
      (by decide) (by decide),
   filterToolsByPolicy_order_independent_deny_wins.2
      [⟨"exec"⟩, ⟨"read"⟩] ⟨some ["read", "exec"], ["exec"]⟩ ⟨"exec"⟩
      (by decide)⟩

/-- C6: for every override input, the resolved subagent policy never admits a
tool from the fixed subagent deny set (session/admin management tools). -/
theorem resolveSubagentToolPolicy_never_admits_admin :
    ∀ (base : Option ToolPolicy) (tools : List AgentTool) (t : AgentTool),
      t ∈ filterToolsByPolicy tools (resolveSubagentToolPolicy base) →
      t.name ∉ DEFAULT_SUBAGENT_TOOL_DENY := by
  intro base tools t hmem hdeny
  have h := List.of_mem_filter hmem
  simp only [Bool.and_eq_true, Bool.not_eq_true'] at h
  have hmem2 : t.name ∈ (resolveSubagentToolPolicy base).deny := by
    simp only [resolveSubagentToolPolicy]
    exact List.mem_append.mpr (Or.inr hdeny)
  have hc := (contains_true_iff _ _).mpr hmem2
  rw [h.2] at hc
  exact absurd hc (by decide)

/-- Concrete instance of C6: with an override that explicitly allows
`sessions_spawn`, the resolved subagent policy still excludes it. -/
theorem resolveSubagentToolPolicy_never_admits_admin_witness :
    (⟨"read"⟩ : AgentTool) ∈
        filterToolsByPolicy [⟨"sessions_spawn"⟩, ⟨"read"⟩]
          (resolveSubagentToolPolicy (some ⟨some ["sessions_spawn", "read"], []⟩))
    ∧ ("read" : String) ∉ DEFAULT_SUBAGENT_TOOL_DENY :=
  ⟨by decide,
   resolveSubagentToolPolicy_never_admits_admin
      (some ⟨some ["sessions_spawn", "read"], []⟩)
      [⟨"sessions_spawn"⟩, ⟨"read"⟩] ⟨"read"⟩ (by decide)⟩

/-! ## Outbound DLP redaction: the secret-text scrubber

`src/logging/redact.ts` (`redactSensitiveText`) is not in the source tree
(only its tests and callers are), so the scrubber is modelled from the spec:
a secret-shaped substring — a maximal token run that carries a known secret
marker and is long enough — is replaced by a masked placeholder that keeps a
short human-recognizable frame; everything else is passed through unchanged.
-/

/-- A token character: part of a candidate secret run. -/
def isTokChar (c : Char) : Bool := c.isAlphanum || c = '-' || c = '_'

/-- The masked placeholder appended after the kept frame of a secret. -/
def MARKER : List Char :=
  ['…', '[', 'R', 'E', 'D', 'A', 'C', 'T', 'E', 'D', ']']

/-- A maximal token run is secret-shaped when it starts with a known secret
marker and is at least 20 characters long. -/
def isSecretRun (run : List Char) : Bool :=
  ("sk-".data.isPrefixOf run || "ghp_".data.isPrefixOf run)
    && decide (20 ≤ run.length)

/-- Mask a secret-shaped run, keeping a six-character frame. -/
def redactRun (run : List Char) : List Char :=
  if isSecretRun run then run.take 6 ++ MARKER else run

/-- Flush the accumulated (reversed) token run through the masking rule. -/
def flushRun (acc : List Char) : List Char := redactRun acc.reverse

/-- Character-by-character scrubber; `acc` is the current token run,
reversed. -/
def redactGo : List Char → List Char → List Char
  | [], acc => flushRun acc
  | c :: cs, acc =>
    if isTokChar c then redactGo cs (c :: acc)
    else flushRun acc ++ c :: redactGo cs []

/-- Modelled from the spec: scrub every secret-shaped substring of the text,
leaving everything else byte-identical. -/
def redactChars (l : List Char) : List Char := redactGo l []

/-- Accumulator version of the no-secret check. -/
def secretFreeGo : List Char → List Char → Bool
  | [], acc => !isSecretRun acc.reverse
  | c :: cs, acc =>
    if isTokChar c then secretFreeGo cs (c :: acc)
    else !isSecretRun acc.reverse && secretFreeGo cs []

/-- No maximal token run of the text is secret-shaped. -/
def secretFreeChars (l : List Char) : Bool := secretFreeGo l []

theorem isSecretRun_nil : isSecretRun [] = false := by decide

theorem redactGo_spec (l acc : List Char) :
    redactGo l acc
      = redactRun (acc.reverse ++ l.takeWhile isTokChar)
        ++ (match l.dropWhile isTokChar with
            | [] => []
            | c :: cs => c :: redactGo cs []) := by
  induction l generalizing acc with
  | nil => simp [redactGo, flushRun, List.takeWhile, List.dropWhile]
  | cons c cs ih =>
    by_cases hc : isTokChar c
    · rw [redactGo, if_pos hc, ih, List.takeWhile_cons_of_pos hc,
        List.dropWhile_cons_of_pos hc]
      simp
    · rw [redactGo, if_neg hc, List.takeWhile_cons_of_neg hc,
        List.dropWhile_cons_of_neg hc]
      simp [flushRun]

theorem secretFreeGo_spec (l acc : List Char) :
    secretFreeGo l acc
      = (!isSecretRun (acc.reverse ++ l.takeWhile isTokChar)
          && (match l.dropWhile isTokChar with
              | [] => true
              | _ :: cs => secretFreeChars cs)) := by
  induction l generalizing acc with
  | nil => simp [secretFreeGo, List.takeWhile, List.dropWhile]
  | cons c cs ih =>
    by_cases hc : isTokChar c
    · rw [secretFreeGo, if_pos hc, ih, List.takeWhile_cons_of_pos hc,
        List.dropWhile_cons_of_pos hc]
      simp
    · rw [secretFreeGo, if_neg hc, List.takeWhile_cons_of_neg hc,
        List.dropWhile_cons_of_neg hc]
      simp [secretFreeChars]

theorem redactChars_nil : redactChars [] = [] := by decide

theorem redactChars_cons_sep {c : Char} (hc : isTokChar c = false)
    (cs : List Char) : redactChars (c :: cs) = c :: redactChars cs := by
  unfold redactChars
  rw [redactGo, if_neg (by simp [hc])]
  simp [flushRun, redactRun, isSecretRun_nil]

theorem redactChars_cons_tok {c : Char} (hc : isTokChar c = true)
    (cs : List Char) :
    redactChars (c :: cs)
      = redactRun ((c :: cs).takeWhile isTokChar)
        ++ redactChars ((c :: cs).dropWhile isTokChar) := by
  unfold redactChars
  rw [redactGo_spec]
  simp only [List.reverse_nil, List.nil_append]
  congr 1
  cases hd : (c :: cs).dropWhile isTokChar with
  | nil => decide
  | cons d ds =>
    have hdtok : isTokChar d = false := by
      have := List.head?_dropWhile_not isTokChar (c :: cs)
      rw [hd] at this
      simpa using this
    rw [redactGo, if_neg (by simp [hdtok])]
    simp [flushRun, redactRun, isSecretRun_nil, redactChars]

theorem secretFreeChars_nil : secretFreeChars [] = true := by decide

theorem secretFreeChars_cons_sep {c : Char} (hc : isTokChar c = false)
    (cs : List Char) : secretFreeChars (c :: cs) = secretFreeChars cs := by
  unfold secretFreeChars
  rw [secretFreeGo, if_neg (by simp [hc])]
  simp [isSecretRun_nil, secretFreeChars]

theorem secretFreeChars_cons_tok {c : Char} (hc : isTokChar c = true)
    (cs : List Char) :
    secretFreeChars (c :: cs)
      = (!isSecretRun ((c :: cs).takeWhile isTokChar)
          && secretFreeChars ((c :: cs).dropWhile isTokChar)) := by
  unfold secretFreeChars
  rw [secretFreeGo_spec]
  simp only [List.reverse_nil, List.nil_append]
  congr 1
  cases hd : (c :: cs).dropWhile isTokChar with
  | nil => decide
  | cons d ds =>
    have hdtok : isTokChar d = false := by
      have := List.head?_dropWhile_not isTokChar (c :: cs)
      rw [hd] at this
      simpa using this
    show secretFreeChars ds = secretFreeGo (d :: ds) []
    exact (secretFreeChars_cons_sep hdtok ds).symm

/-- The text is empty or starts with a separator character. -/
def headSep (l : List Char) : Bool :=
  match l with
  | [] => true
  | c :: _ => !isTokChar c

theorem takeWhile_append_all {p : Char → Bool} {a : List Char}
    (h : ∀ c ∈ a, p c = true) (b : List Char) :
    (a ++ b).takeWhile p = a ++ b.takeWhile p := by
  induction a with
  | nil => rfl
  | cons c cs ih =>
    rw [List.cons_append, List.takeWhile_cons_of_pos (h c (by simp)),
      ih (fun x hx => h x (by simp [hx]))]
    simp

theorem dropWhile_append_all {p : Char → Bool} {a : List Char}
    (h : ∀ c ∈ a, p c = true) (b : List Char) :
    (a ++ b).dropWhile p = b.dropWhile p := by
  induction a with
  | nil => rfl
  | cons c cs ih =>
    rw [List.cons_append, List.dropWhile_cons_of_pos (h c (by simp)),
      ih (fun x hx => h x (by simp [hx]))]

theorem takeWhile_eq_nil_of_headSep {l : List Char}
    (h : headSep l = true) : l.takeWhile isTokChar = [] := by
  cases l with
  | nil => rfl
  | cons c cs =>
    simp only [headSep, Bool.not_eq_true'] at h
    exact List.takeWhile_cons_of_neg (by simp [h])

theorem dropWhile_eq_self_of_headSep {l : List Char}
    (h : headSep l = true) : l.dropWhile isTokChar = l := by
  cases l with
  | nil => rfl
  | cons c cs =>
    simp only [headSep, Bool.not_eq_true'] at h
    exact List.dropWhile_cons_of_neg (by simp [h])

theorem secretFreeChars_run_append {run rest : List Char} (hne : run ≠ [])
    (hall : ∀ c ∈ run, isTokChar c = true) (hsep : headSep rest = true) :
    secretFreeChars (run ++ rest)
      = (!isSecretRun run && secretFreeChars rest) := by
  cases run with
  | nil => exact absurd rfl hne
  | cons c cs =>
    rw [List.cons_append,
      secretFreeChars_cons_tok (hall c (by simp)) (cs ++ rest),
      ← List.cons_append,
      takeWhile_append_all hall, takeWhile_eq_nil_of_headSep hsep,
      dropWhile_append_all hall, dropWhile_eq_self_of_headSep hsep,
      List.append_nil]

theorem redactChars_run_append {run rest : List Char} (hne : run ≠ [])
    (hall : ∀ c ∈ run, isTokChar c = true) (hsep : headSep rest = true) :
    redactChars (run ++ rest) = redactRun run ++ redactChars rest := by
  cases run with
  | nil => exact absurd rfl hne
  | cons c cs =>
    rw [List.cons_append,
      redactChars_cons_tok (hall c (by simp)) (cs ++ rest),
      ← List.cons_append,
      takeWhile_append_all hall, takeWhile_eq_nil_of_headSep hsep,
      dropWhile_append_all hall, dropWhile_eq_self_of_headSep hsep,
      List.append_nil]

theorem headSep_dropWhile (l : List Char) :
    headSep (l.dropWhile isTokChar) = true := by
  cases hd : l.dropWhile isTokChar with
  | nil => rfl
  | cons d ds =>
    have := List.head?_dropWhile_not isTokChar l
    rw [hd] at this
    simp only [List.head?_cons, Option.all_some] at this
    simp [headSep, this]

theorem length_dropWhile_cons_lt {c : Char} (hc : isTokChar c = true)
    (cs : List Char) :
    ((c :: cs).dropWhile isTokChar).length < (c :: cs).length := by
  rw [List.dropWhile_cons_of_pos (by simp [hc])]
  exact Nat.lt_succ_of_le ((List.dropWhile_sublist isTokChar).length_le)

/-- Clean text (no secret-shaped run) is returned byte-for-byte unchanged. -/
theorem redactChars_of_secretFree :
    ∀ (l : List Char), secretFreeChars l = true → redactChars l = l
  | [] => fun _ => redactChars_nil
  | c :: cs => fun h => by
    by_cases hc : isTokChar c
    · rw [secretFreeChars_cons_tok hc] at h
      simp only [Bool.and_eq_true, Bool.not_eq_true'] at h
      rw [redactChars_cons_tok hc, redactRun, if_neg (by simp [h.1]),
        redactChars_of_secretFree _ h.2,
        List.takeWhile_append_dropWhile]
    · rw [secretFreeChars_cons_sep (by simpa using hc)] at h
      rw [redactChars_cons_sep (by simpa using hc),
        redactChars_of_secretFree cs h]
termination_by l => l.length
decreasing_by
  · exact length_dropWhile_cons_lt (by simpa using hc) cs
  · simp

/-- Every character of the scrubbed text comes from the input or from the
masked placeholder. -/
theorem mem_redactChars :
    ∀ (l : List Char) (c : Char), c ∈ redactChars l → c ∈ l ∨ c ∈ MARKER
  | [] => fun c hc => by rw [redactChars_nil] at hc; cases hc
  | d :: ds => fun c hc => by
    by_cases hd : isTokChar d
    · rw [redactChars_cons_tok hd] at hc
      rcases List.mem_append.mp hc with h | h
      · unfold redactRun at h
        split at h
        · rcases List.mem_append.mp h with h2 | h2
          · exact Or.inl ((List.takeWhile_sublist isTokChar).subset
              (List.mem_of_mem_take h2))
          · exact Or.inr h2
        · exact Or.inl ((List.takeWhile_sublist isTokChar).subset h)
      · rcases mem_redactChars ((d :: ds).dropWhile isTokChar) c h with h2 | h2
        · exact Or.inl ((List.dropWhile_sublist isTokChar).subset h2)
        · exact Or.inr h2
    · rw [redactChars_cons_sep (by simpa using hd)] at hc
      rcases List.mem_cons.mp hc with h | h
      · exact Or.inl (by simp [h])
      · rcases mem_redactChars ds c h with h2 | h2
        · exact Or.inl (by simp [h2])
        · exact Or.inr h2
termination_by l => l.length
decreasing_by
  · rw [List.dropWhile_cons_of_pos hd]
    exact Nat.lt_succ_of_le ((List.dropWhile_sublist isTokChar).length_le)
  · simp

theorem headSep_redactChars {l : List Char} (h : headSep l = true) :
    headSep (redactChars l) = true := by
  cases l with
  | nil => rw [redactChars_nil]; rfl
  | cons c cs =>
    simp only [headSep, Bool.not_eq_true'] at h
    rw [redactChars_cons_sep h]
    simp [headSep, h]

theorem isSecretRun_take6 (run : List Char) :
    isSecretRun (run.take 6) = false := by
  have hlen : (run.take 6).length ≤ 6 := by
    rw [List.length_take]; exact min_le_left _ _
  unfold isSecretRun
  have : decide (20 ≤ (run.take 6).length) = false := by
    simp only [decide_eq_false_iff_not]
    omega
  rw [this, Bool.and_false]

theorem secretFreeChars_marker_append {R : List Char}
    (hsep : headSep R = true) :
    secretFreeChars (MARKER ++ R) = secretFreeChars R := by
  have hm : MARKER ++ R
      = '…' :: '[' :: (['R', 'E', 'D', 'A', 'C', 'T', 'E', 'D'] ++ (']' :: R)) := rfl
  rw [hm, secretFreeChars_cons_sep (by decide),
    secretFreeChars_cons_sep (by decide),
    secretFreeChars_run_append (by decide) (by decide)
      (by simp only [headSep]; decide),
    secretFreeChars_cons_sep (by decide)]
  have hw : isSecretRun ['R', 'E', 'D', 'A', 'C', 'T', 'E', 'D'] = false := by
    decide
  rw [hw]
  simp

theorem headSep_marker_append (R : List Char) :
    headSep (MARKER ++ R) = true := rfl

/-- The scrubbed text contains no secret-shaped run. -/
theorem secretFreeChars_redactChars :
    ∀ (l : List Char), secretFreeChars (redactChars l) = true
  | [] => by rw [redactChars_nil]; exact secretFreeChars_nil
  | c :: cs => by
    by_cases hc : isTokChar c
    · rw [redactChars_cons_tok hc]
      have hne : (c :: cs).takeWhile isTokChar ≠ [] := by
        rw [List.takeWhile_cons_of_pos hc]; simp
      have hall : ∀ x ∈ (c :: cs).takeWhile isTokChar, isTokChar x = true :=
        fun x hx => List.mem_takeWhile_imp hx
      have hsepR : headSep (redactChars ((c :: cs).dropWhile isTokChar)) = true :=
        headSep_redactChars (headSep_dropWhile (c :: cs))
      have ih := secretFreeChars_redactChars ((c :: cs).dropWhile isTokChar)
      unfold redactRun
      split
      · rw [List.append_assoc,
          secretFreeChars_run_append
            (by intro h0; exact hne (by simpa using List.take_eq_nil_iff.mp h0))
            (fun x hx => hall x (List.mem_of_mem_take hx))
            (headSep_marker_append _),
          isSecretRun_take6, secretFreeChars_marker_append hsepR, ih]
        rfl
      · rw [secretFreeChars_run_append hne hall hsepR, ih]
        rename_i hns
        have hns2 : isSecretRun ((c :: cs).takeWhile isTokChar) = false :=
          Bool.eq_false_iff.mpr hns
        simp [hns2]
    · rw [redactChars_cons_sep (by simpa using hc),
        secretFreeChars_cons_sep (by simpa using hc)]
      exact secretFreeChars_redactChars cs
termination_by l => l.length
decreasing_by
  · exact length_dropWhile_cons_lt hc cs
  · simp

/-- DLP scrubbing is idempotent at the text level. -/
theorem redactChars_idem (l : List Char) :
    redactChars (redactChars l) = redactChars l :=
  redactChars_of_secretFree _ (secretFreeChars_redactChars l)

theorem takeWhile_append_sep {p : Char → Bool} {s : Char}
    (hs : p s = false) :
    ∀ (a b : List Char), (a ++ s :: b).takeWhile p = a.takeWhile p
  | [], b => by
    rw [List.nil_append, List.takeWhile_cons_of_neg (by simp [hs])]
    rfl
  | c :: cs, b => by
    by_cases hc : p c
    · rw [List.cons_append, List.takeWhile_cons_of_pos hc,
        List.takeWhile_cons_of_pos hc, takeWhile_append_sep hs cs b]
    · rw [List.cons_append, List.takeWhile_cons_of_neg hc,
        List.takeWhile_cons_of_neg hc]

theorem dropWhile_append_sep {p : Char → Bool} {s : Char}
    (hs : p s = false) :
    ∀ (a b : List Char), (a ++ s :: b).dropWhile p = a.dropWhile p ++ s :: b
  | [], b => by
    rw [List.nil_append, List.dropWhile_cons_of_neg (by simp [hs])]
    rfl
  | c :: cs, b => by
    by_cases hc : p c
    · rw [List.cons_append, List.dropWhile_cons_of_pos hc,
        List.dropWhile_cons_of_pos hc, dropWhile_append_sep hs cs b]
    · rw [List.cons_append, List.dropWhile_cons_of_neg hc,
        List.dropWhile_cons_of_neg hc, List.cons_append]

/-- A separator character splits a secret-free text into secret-free parts. -/
theorem secretFree_append_sep :
    ∀ (a : List Char) {s : Char} {b : List Char}, isTokChar s = false →
      secretFreeChars (a ++ s :: b) = true →
      secretFreeChars a = true ∧ secretFreeChars b = true
  | [], s, b => fun hs h => by
    rw [List.nil_append, secretFreeChars_cons_sep hs] at h
    exact ⟨secretFreeChars_nil, h⟩
  | c :: cs, s, b => fun hs h => by
    by_cases hc : isTokChar c
    · rw [List.cons_append,
        secretFreeChars_cons_tok hc, ← List.cons_append,
        takeWhile_append_sep hs (c :: cs) b,
        dropWhile_append_sep hs (c :: cs) b] at h
      simp only [Bool.and_eq_true, Bool.not_eq_true'] at h
      have hrec := secretFree_append_sep ((c :: cs).dropWhile isTokChar) hs h.2
      refine ⟨?_, hrec.2⟩
      rw [secretFreeChars_cons_tok hc]
      simp [h.1, hrec.1]
    · rw [List.cons_append, secretFreeChars_cons_sep (by simpa using hc)] at h
      have hrec := secretFree_append_sep cs hs h
      rw [secretFreeChars_cons_sep (by simpa using hc)]
      exact hrec
termination_by a => a.length
decreasing_by
  · exact length_dropWhile_cons_lt hc cs
  · simp

/-! ## URL model

The repository code manipulates media URLs through the platform URL API
(`new URL`, `searchParams`). The model below embeds the parts of that API
the code relies on: splitting a URL into scheme / hostname / port / path /
query, a query-parameter list, and serialization back to a string.
-/

/-- Split a string on every occurrence of a separator character. -/
def splitOnChar (sep : Char) : List Char → List (List Char)
  | [] => [[]]
  | c :: cs =>
    if c = sep then [] :: splitOnChar sep cs
    else
      match splitOnChar sep cs with
      | [] => [[c]]
      | p :: ps => (c :: p) :: ps

/-- Join pieces with a separator character between them. -/
def joinWithChar (sep : Char) : List (List Char) → List Char
  | [] => []
  | [p] => p
  | p :: ps => p ++ sep :: joinWithChar sep ps

theorem splitOnChar_ne_nil (sep : Char) (l : List Char) :
    splitOnChar sep l ≠ [] := by
  cases l with
  | nil => simp [splitOnChar]
  | cons c cs =>
    unfold splitOnChar
    by_cases hc : c = sep
    · simp [hc]
    · simp only [if_neg hc]
      cases splitOnChar sep cs <;> simp

theorem not_mem_of_mem_splitOnChar {sep : Char} :
    ∀ (l : List Char) (p : List Char), p ∈ splitOnChar sep l → sep ∉ p
  | [], p => by intro hp; simp [splitOnChar] at hp; simp [hp]
  | c :: cs, p => by
    intro hp
    unfold splitOnChar at hp
    by_cases hc : c = sep
    · rw [if_pos hc] at hp
      rcases List.mem_cons.mp hp with h | h
      · simp [h]
      · exact not_mem_of_mem_splitOnChar cs p h
    · rw [if_neg hc] at hp
      cases hsp : splitOnChar sep cs with
      | nil => exact absurd hsp (splitOnChar_ne_nil sep cs)
      | cons q qs =>
        rw [hsp] at hp
        rcases List.mem_cons.mp hp with h | h
        · subst h
          intro hm
          rcases List.mem_cons.mp hm with h2 | h2
          · exact hc h2.symm
          · exact not_mem_of_mem_splitOnChar cs q (by simp [hsp]) h2
        · exact not_mem_of_mem_splitOnChar cs p (by simp [hsp, h])

theorem splitOnChar_append_of_not_mem {sep : Char} :
    ∀ (p : List Char), sep ∉ p → ∀ (l : List Char) (q : List Char)
      (qs : List (List Char)), splitOnChar sep l = q :: qs →
      splitOnChar sep (p ++ l) = (p ++ q) :: qs
  | [], _, l, q, qs => fun h => by simpa using h
  | c :: cs, hp, l, q, qs => fun h => by
    have hc : ¬c = sep := fun he => hp (by simp [he])
    have hrec := splitOnChar_append_of_not_mem cs
      (fun hm => hp (by simp [hm])) l q qs h
    rw [List.cons_append]
    unfold splitOnChar
    rw [if_neg hc, hrec]
    rfl

theorem splitOnChar_joinWithChar {sep : Char} :
    ∀ (ps : List (List Char)), ps ≠ [] → (∀ p ∈ ps, sep ∉ p) →
      splitOnChar sep (joinWithChar sep ps) = ps
  | [], h, _ => absurd rfl h
  | [p], _, hmem => by
    show splitOnChar sep p = [p]
    have h0 := splitOnChar_append_of_not_mem p (hmem p (by simp)) [] [] [] rfl
    simpa using h0
  | p :: q :: qs, _, hmem => by
    show splitOnChar sep (p ++ sep :: joinWithChar sep (q :: qs)) = p :: q :: qs
    have hrec := splitOnChar_joinWithChar (q :: qs) (by simp)
      (fun x hx => hmem x (by simp [hx]))
    have hsplit : splitOnChar sep (sep :: joinWithChar sep (q :: qs))
        = [] :: q :: qs := by
      unfold splitOnChar
      rw [if_pos rfl, hrec]
    have := splitOnChar_append_of_not_mem p (hmem p (by simp))
      (sep :: joinWithChar sep (q :: qs)) [] (q :: qs) hsplit
    simpa using this

theorem takeWhile_all_eq_self {p : Char → Bool} {a : List Char}
    (h : ∀ c ∈ a, p c = true) : a.takeWhile p = a := by
  have := takeWhile_append_all h ([] : List Char)
  simpa using this

theorem dropWhile_all_eq_nil {p : Char → Bool} {a : List Char}
    (h : ∀ c ∈ a, p c = true) : a.dropWhile p = [] := by
  have := dropWhile_append_all h ([] : List Char)
  simpa using this

/-- Split one query parameter into key and value at the first equals sign. -/
def splitKV (piece : List Char) : List Char × List Char :=
  (piece.takeWhile (fun c => !(c = '=')),
   match piece.dropWhile (fun c => !(c = '=')) with
   | [] => []
   | _ :: v => v)

/-- All query parameters of a raw query string, in order. -/
def parseParams (q : List Char) : List (List Char × List Char) :=
  if q = [] then [] else (splitOnChar '&' q).map splitKV

/-- Serialize query parameters back to a raw query string. -/
def serializeParams (ps : List (List Char × List Char)) : List Char :=
  joinWithChar '&' (ps.map (fun kv => kv.1 ++ '=' :: kv.2))

theorem joinWithChar_ne_nil {sep : Char} :
    ∀ (p : List Char) (ps : List (List Char)), p ≠ [] →
      joinWithChar sep (p :: ps) ≠ []
  | p, [], hp => by simpa [joinWithChar] using hp
  | p, q :: qs, _ => by
    show p ++ sep :: joinWithChar sep (q :: qs) ≠ []
    cases p <;> simp

theorem splitKV_mk {k v : List Char} (hk : ('=' : Char) ∉ k) :
    splitKV (k ++ '=' :: v) = (k, v) := by
  have hall : ∀ c ∈ k, (fun c => !(c = '=')) c = true := by
    intro c hc
    simp only [Bool.not_eq_true']
    exact decide_eq_false (fun he => hk (he ▸ hc))
  unfold splitKV
  rw [takeWhile_append_sep (by simp) k v, takeWhile_all_eq_self hall,
    dropWhile_append_sep (by simp) k v, dropWhile_all_eq_nil hall]
  rfl

/-- Serialization followed by parsing recovers the parameter list, for
well-formed keys and values. -/
theorem parseParams_serializeParams {ps : List (List Char × List Char)}
    (hne : ps ≠ [])
    (hwf : ∀ kv ∈ ps, ('&' : Char) ∉ kv.1 ∧ ('=' : Char) ∉ kv.1
      ∧ ('&' : Char) ∉ kv.2) :
    parseParams (serializeParams ps) = ps := by
  cases ps with
  | nil => exact absurd rfl hne
  | cons kv rest =>
    unfold serializeParams parseParams
    have hq : joinWithChar '&'
        ((kv :: rest).map (fun kv => kv.1 ++ '=' :: kv.2)) ≠ [] := by
      apply joinWithChar_ne_nil
      cases h : kv.1 <;> simp
    rw [if_neg hq]
    have hpieces : ∀ p ∈ (kv :: rest).map (fun kv => kv.1 ++ '=' :: kv.2),
        ('&' : Char) ∉ p := by
      intro p hp
      rcases List.mem_map.mp hp with ⟨x, hx, hxe⟩
      subst hxe
      intro hm
      rcases List.mem_append.mp hm with h | h
      · exact (hwf x hx).1 h
      · rcases List.mem_cons.mp h with h2 | h2
        · exact absurd h2 (by decide)
        · exact (hwf x hx).2.2 h2
    rw [splitOnChar_joinWithChar _ (by simp) hpieces, List.map_map]
    have hid : ∀ x ∈ kv :: rest,
        (splitKV ∘ fun kv => kv.1 ++ '=' :: kv.2) x = id x := by
      intro x hx
      exact splitKV_mk (hwf x hx).2.1
    rw [List.map_congr_left hid, List.map_id]

/-- Components of a parsed URL. A bracketed IPv6 hostname keeps its
brackets, as in the platform URL API. -/
structure UrlParts where
  scheme : List Char
  hostname : List Char
  port : Option (List Char)
  path : List Char
  query : Option (List Char)
deriving DecidableEq, Repr

/-- Split an authority component into hostname and optional port. -/
def parseAuthority (auth : List Char) : Option (List Char × Option (List Char)) :=
  match auth with
  | [] => none
  | c :: rest =>
    if c = '[' then
      match rest.dropWhile (fun x => !(x = ']')) with
      | [] => none
      | _ :: after =>
        let host := '[' :: (rest.takeWhile (fun x => !(x = ']')) ++ [']'])
        match after with
        | [] => some (host, none)
        | a :: p => if a = ':' then some (host, some p) else none
    else if c = ':' then none
    else
      match (c :: rest).dropWhile (fun x => !(x = ':')) with
      | [] => some ((c :: rest).takeWhile (fun x => !(x = ':')), none)
      | _ :: p => some ((c :: rest).takeWhile (fun x => !(x = ':')), some p)

/-- Parse a URL string into its components: scheme up to the first colon,
then `//`, authority up to the first slash or question mark, path up to the
first question mark, query after it. -/
def parseUrlChars (s : List Char) : Option UrlParts :=
  let scheme := s.takeWhile (fun c => !(c = ':'))
  if scheme = [] then none
  else
    match s.dropWhile (fun c => !(c = ':')) with
    | ':' :: '/' :: '/' :: rest =>
      let auth := rest.takeWhile (fun c => !(c = '/') && !(c = '?'))
      let after := rest.dropWhile (fun c => !(c = '/') && !(c = '?'))
      let path := after.takeWhile (fun c => !(c = '?'))
      let query : Option (List Char) :=
        match after.dropWhile (fun c => !(c = '?')) with
        | [] => none
        | _ :: q => some q
      match parseAuthority auth with
      | none => none
      | some hp => some ⟨scheme, hp.1, hp.2, path, query⟩
    | _ => none

/-- Serialized form of an optional port. -/
def portStr (po : Option (List Char)) : List Char :=
  match po with
  | none => []
  | some p => ':' :: p

/-- Serialized form of an optional query. -/
def queryStr (qo : Option (List Char)) : List Char :=
  match qo with
  | none => []
  | some q => '?' :: q

/-- Serialize URL components back to a string. -/
def urlToChars (u : UrlParts) : List Char :=
  u.scheme ++ ':' :: '/' :: '/' ::
    (u.hostname ++ portStr u.port ++ u.path ++ queryStr u.query)

/-- A hostname as produced by the parser: non-empty, free of slashes and
question marks, either bracketed IPv6 or colon-free. -/
def wfHost (h : List Char) : Bool :=
  h.all (fun x => !(x = '/') && !(x = '?')) &&
    match h with
    | [] => false
    | c :: rest =>
      if c = '[' then
        match rest.getLast? with
        | some ']' => rest.dropLast.all (fun x => !(x = ']'))
        | _ => false
      else !(c = ':') && rest.all (fun x => !(x = ':'))

/-- A port as produced by the parser: free of slashes and question marks. -/
def wfPort (po : Option (List Char)) : Bool :=
  match po with
  | none => true
  | some p => p.all (fun x => !(x = '/') && !(x = '?'))

/-- A path as produced by the parser: free of question marks, empty or
starting with a slash. -/
def wfPath (path : List Char) : Bool :=
  path.all (fun x => !(x = '?')) &&
    match path with
    | [] => true
    | c :: _ => c = '/'

/-- URL components in the image of the parser. -/
def wfUrl (u : UrlParts) : Bool :=
  !(u.scheme = []) && u.scheme.all (fun x => !(x = ':'))
    && wfHost u.hostname && wfPort u.port && wfPath u.path

theorem takeWhile_append_stop {p : Char → Bool} {a b : List Char}
    (ha : ∀ c ∈ a, p c = true)
    (hb : match b with | [] => True | c :: _ => p c = false) :
    (a ++ b).takeWhile p = a ∧ (a ++ b).dropWhile p = b := by
  rw [takeWhile_append_all ha, dropWhile_append_all ha]
  cases b with
  | nil => simp
  | cons c cs =>
    simp only at hb
    rw [List.takeWhile_cons_of_neg (by simp [hb]),
      List.dropWhile_cons_of_neg (by simp [hb])]
    simp

theorem parseAuthority_mk {h : List Char} {po : Option (List Char)}
    (hh : wfHost h = true) (hp : wfPort po = true) :
    parseAuthority (h ++ portStr po) = some (h, po) := by
  unfold wfHost at hh
  cases h with
  | nil => simp at hh
  | cons c rest =>
    simp only [Bool.and_eq_true] at hh
    obtain ⟨hp2, htail⟩ := hh
    by_cases hc : c = '['
    · subst hc
      rw [if_pos rfl] at htail
      cases hgl : rest.getLast? with
      | none => rw [hgl] at htail; simp at htail
      | some a =>
        rw [hgl] at htail
        rcases List.getLast?_eq_some_iff.mp hgl with ⟨inner, hrest⟩
        by_cases ha : a = ']'
        · subst ha
          subst hrest
          simp only [List.dropLast_concat] at htail
          have hinner : ∀ x ∈ inner, (fun x => !(x = ']')) x = true :=
            List.all_eq_true.mp htail
          rw [List.cons_append]
          simp only [parseAuthority]
          rw [if_pos trivial]
          have hshape : (inner ++ [']']) ++ portStr po
              = inner ++ ']' :: portStr po := by
            simp
          rw [hshape]
          have hstop := takeWhile_append_stop hinner
            (b := ']' :: portStr po) (by simp)
          rw [hstop.1, hstop.2]
          cases po with
          | none => rfl
          | some p => simp [portStr]
        · simp [ha] at htail
    · rw [if_neg hc] at htail
      simp only [Bool.and_eq_true, Bool.not_eq_true', decide_eq_false_iff_not] at htail
      have hall : ∀ x ∈ c :: rest, (fun x => !(x = ':')) x = true := by
        intro x hx
        rcases List.mem_cons.mp hx with h | h
        · simp [h, htail.1]
        · simpa using List.all_eq_true.mp htail.2 x h
      rw [List.cons_append]
      simp only [parseAuthority]
      rw [if_neg hc, if_neg (by simpa using htail.1)]
      have hstop := takeWhile_append_stop hall
        (b := portStr po) (by cases po <;> simp [portStr])
      rw [← List.cons_append, hstop.1, hstop.2]
      cases po with
      | none => rfl
      | some p => rfl

theorem queryStr_drop (qo : Option (List Char)) :
    (match queryStr qo with | [] => none | _ :: q => some q) = qo := by
  cases qo <;> rfl

/-- Serialization followed by parsing recovers the URL components, for
components in the image of the parser. -/
theorem parseUrlChars_urlToChars {u : UrlParts} (h : wfUrl u = true) :
    parseUrlChars (urlToChars u) = some u := by
  unfold wfUrl at h
  simp only [Bool.and_eq_true] at h
  obtain ⟨⟨⟨⟨h1, h2⟩, h3⟩, h4⟩, h5⟩ := h
  have hsch : ∀ x ∈ u.scheme, (fun c => !(c = ':')) x = true := by
    intro x hx
    simpa using List.all_eq_true.mp h2 x hx
  have hschne : ¬(u.scheme = []) := by simpa using h1
  have hhostall : (u.hostname).all (fun x => !(x = '/') && !(x = '?')) = true := by
    have h := h3
    unfold wfHost at h
    simp only [Bool.and_eq_true] at h
    exact h.1
  have hauth : ∀ x ∈ u.hostname ++ portStr u.port,
      (fun c => !(c = '/') && !(c = '?')) x = true := by
    intro x hx
    rcases List.mem_append.mp hx with hm | hm
    · exact List.all_eq_true.mp hhostall x hm
    · cases hpo : u.port with
      | none => rw [hpo] at hm; simp [portStr] at hm
      | some p =>
        rw [hpo] at hm
        rcases List.mem_cons.mp hm with h | h
        · simp [h]
        · rw [hpo] at h4
          unfold wfPort at h4
          exact List.all_eq_true.mp h4 x h
  have hpathq : (u.path).all (fun x => !(x = '?')) = true := by
    have h := h5
    unfold wfPath at h
    simp only [Bool.and_eq_true] at h
    exact h.1
  have hpathhead : (match u.path with | [] => true | c :: _ => decide (c = '/'))
      = true := by
    have h := h5
    unfold wfPath at h
    simp only [Bool.and_eq_true] at h
    exact h.2
  have hb2 : (match u.path ++ queryStr u.query with
      | [] => True
      | c :: _ => (fun c => !(c = '/') && !(c = '?')) c = false) := by
    cases hp : u.path with
    | nil =>
      cases hq : u.query with
      | none => simp [queryStr]
      | some q => simp [queryStr]
    | cons c cs =>
      rw [hp] at hpathhead
      simp only [decide_eq_true_eq] at hpathhead
      subst hpathhead
      simp
  have hb3 : (match queryStr u.query with
      | [] => True
      | c :: _ => (fun c => !(c = '?')) c = false) := by
    cases u.query <;> simp [queryStr]
  unfold urlToChars parseUrlChars
  have hstop1 := takeWhile_append_stop hsch
    (b := ':' :: '/' :: '/' ::
      (u.hostname ++ portStr u.port ++ u.path ++ queryStr u.query))
    (by simp)
  rw [hstop1.1, hstop1.2, if_neg hschne]
  simp only
  rw [List.append_assoc (u.hostname ++ portStr u.port) u.path
    (queryStr u.query)]
  have hstop2 := takeWhile_append_stop hauth
    (b := u.path ++ queryStr u.query) hb2
  rw [hstop2.1, hstop2.2]
  have hstop3 := takeWhile_append_stop (List.all_eq_true.mp hpathq)
    (b := queryStr u.query) hb3
  rw [hstop3.1, hstop3.2, parseAuthority_mk h3 h4, queryStr_drop]

theorem parseAuthority_wf {auth h : List Char} {po : Option (List Char)}
    (hall : ∀ c ∈ auth, (!(c = '/') && !(c = '?')) = true)
    (hpa : parseAuthority auth = some (h, po)) :
    wfHost h = true ∧ wfPort po = true := by
  cases auth with
  | nil => exact absurd hpa (by simp [parseAuthority])
  | cons c rest =>
    unfold parseAuthority at hpa
    simp only at hpa
    by_cases hc : c = '['
    · subst hc
      rw [if_pos rfl] at hpa
      cases hdr : rest.dropWhile (fun x => !(x = ']')) with
      | nil => rw [hdr] at hpa; exact absurd hpa (by simp)
      | cons d after =>
        rw [hdr] at hpa
        have hhost : h = '[' :: (rest.takeWhile (fun x => !(x = ']')) ++ [']'])
            ∧ (po = none ∧ after = []
               ∨ ∃ p, po = some p ∧ after = ':' :: p) := by
          cases hafter : after with
          | nil =>
            rw [hafter] at hpa
            simp only [Option.some.injEq, Prod.mk.injEq] at hpa
            exact ⟨hpa.1.symm, Or.inl ⟨hpa.2.symm, rfl⟩⟩
          | cons a p =>
            rw [hafter] at hpa
            simp only at hpa
            by_cases ha : a = ':'
            · rw [if_pos ha] at hpa
              simp only [Option.some.injEq, Prod.mk.injEq] at hpa
              exact ⟨hpa.1.symm, Or.inr ⟨p, hpa.2.symm, by rw [ha]⟩⟩
            · rw [if_neg ha] at hpa
              exact absurd hpa (by simp)
        obtain ⟨hh, hpo⟩ := hhost
        constructor
        · subst hh
          unfold wfHost
          have hmemauth : ∀ x ∈ rest.takeWhile (fun x => !(x = ']')),
              x ∈ '[' :: rest := fun x hx =>
            List.mem_cons_of_mem _ ((List.takeWhile_sublist _).subset hx)
          simp only [Bool.and_eq_true]
          refine ⟨?_, ?_⟩
          · rw [List.all_eq_true]
            intro x hx
            rcases List.mem_cons.mp hx with h1 | h1
            · subst h1; decide
            · rcases List.mem_append.mp h1 with h2 | h2
              · exact hall x (hmemauth x h2)
              · rcases List.mem_singleton.mp h2 with h3
                subst h3; decide
          · rw [if_pos trivial, List.getLast?_concat, List.dropLast_concat]
            have hta : ∀ x ∈ List.takeWhile (fun x => !(x = ']')) rest,
                (!(x = ']')) = true := by
              intro x hx
              have h9 := List.mem_takeWhile_imp hx
              simp at h9
              simp [h9]
            show (List.takeWhile (fun x => !(x = ']')) rest).all
              (fun x => !(x = ']')) = true
            rw [List.all_eq_true]
            exact hta
        · rcases hpo with ⟨hpn, _⟩ | ⟨p, hps, hap⟩
          · rw [hpn]; rfl
          · rw [hps]
            unfold wfPort
            rw [List.all_eq_true]
            intro x hx
            have hx2 : x ∈ d :: after := by
              rw [hap]
              exact List.mem_cons_of_mem _ (List.mem_cons_of_mem _ hx)
            have hx3 : x ∈ rest := by
              rw [← hdr] at hx2
              exact (List.dropWhile_sublist _).subset hx2
            exact hall x (List.mem_cons_of_mem _ hx3)
    · rw [if_neg hc] at hpa
      by_cases hcc : c = ':'
      · rw [if_pos hcc] at hpa; exact absurd hpa (by simp)
      · rw [if_neg hcc] at hpa
        have hhostwf : wfHost ((c :: rest).takeWhile (fun x => !(x = ':')))
            = true := by
          unfold wfHost
          rw [List.takeWhile_cons_of_pos (by simp [hcc])]
          simp only [Bool.and_eq_true]
          refine ⟨?_, ?_⟩
          · rw [List.all_eq_true]
            intro x hx
            rcases List.mem_cons.mp hx with h1 | h1
            · rw [h1]
              simpa using hall c (by simp)
            · exact hall x (List.mem_cons_of_mem _
                ((List.takeWhile_sublist _).subset h1))
          · rw [if_neg hc]
            simp only [Bool.and_eq_true, Bool.not_eq_true', decide_eq_false_iff_not]
            refine ⟨hcc, ?_⟩
            rw [List.all_eq_true]
            intro x hx
            have h9 := List.mem_takeWhile_imp hx
            simpa using h9
        cases hdw : (c :: rest).dropWhile (fun x => !(x = ':')) with
        | nil =>
          rw [hdw] at hpa
          simp only [Option.some.injEq, Prod.mk.injEq] at hpa
          refine ⟨hpa.1 ▸ hhostwf, ?_⟩
          rw [← hpa.2]; rfl
        | cons d p =>
          rw [hdw] at hpa
          simp only [Option.some.injEq, Prod.mk.injEq] at hpa
          refine ⟨hpa.1 ▸ hhostwf, ?_⟩
          rw [← hpa.2]
          unfold wfPort
          rw [List.all_eq_true]
          intro x hx
          have hx2 : x ∈ d :: p := List.mem_cons_of_mem _ hx
          rw [← hdw] at hx2
          exact hall x ((List.dropWhile_sublist _).subset hx2)

theorem wfPath_takeWhile (after : List Char)
    (hhead : match after with
      | [] => True
      | a :: _ => (!(a = '/') && !(a = '?')) = false) :
    wfPath (after.takeWhile (fun c => !(c = '?'))) = true := by
  unfold wfPath
  simp only [Bool.and_eq_true]
  refine ⟨?_, ?_⟩
  · rw [List.all_eq_true]
    intro x hx
    have h9 := List.mem_takeWhile_imp hx
    simpa using h9
  · cases after with
    | nil => rfl
    | cons a as =>
      simp only at hhead
      by_cases ha : a = '?'
      · rw [List.takeWhile_cons_of_neg (by simp [ha])]
      · have ha2 : a = '/' := by
          simp only [Bool.and_eq_false_iff, Bool.not_eq_false',
            decide_eq_true_eq] at hhead
          rcases hhead with h | h
          · exact h
          · exact absurd h ha
        rw [List.takeWhile_cons_of_pos (by simp [ha])]
        simp [ha2]

/-- Components produced by the parser are well-formed. -/
theorem parseUrlChars_wf {s : List Char} {u : UrlParts}
    (hp : parseUrlChars s = some u) : wfUrl u = true := by
  unfold parseUrlChars at hp
  dsimp only at hp
  by_cases hsch : List.takeWhile (fun c => !(c = ':')) s = []
  · rw [if_pos hsch] at hp
    exact Option.noConfusion hp
  · rw [if_neg hsch] at hp
    split at hp
    case _ rest heq =>
      split at hp
      case _ => exact Option.noConfusion hp
      case _ hpair heq2 =>
        obtain ⟨host, po⟩ := hpair
        have hu := Option.some.inj hp
        rw [← hu]
        unfold wfUrl
        simp only [Bool.and_eq_true]
        refine ⟨⟨⟨⟨by simpa using hsch, ?_⟩, ?_⟩, ?_⟩, ?_⟩
        · rw [List.all_eq_true]
          intro x hx
          simpa using List.mem_takeWhile_imp hx
        · exact (parseAuthority_wf
            (fun c hc => by simpa using List.mem_takeWhile_imp hc) heq2).1
        · exact (parseAuthority_wf
            (fun c hc => by simpa using List.mem_takeWhile_imp hc) heq2).2
        · apply wfPath_takeWhile
          cases hdr : rest.dropWhile (fun c => !(c = '/') && !(c = '?')) with
          | nil => trivial
          | cons a as =>
            have := List.head?_dropWhile_not
              (fun c => !(c = '/') && !(c = '?')) rest
            rw [hdr] at this
            simpa using this
    case _ => exact Option.noConfusion hp

/-- The raw query returned by the parser is a suffix of the input, preceded
by a question mark. -/
theorem parseUrl_query_suffix {s : List Char} {u : UrlParts}
    (hp : parseUrlChars s = some u) :
    u.query = none ∨ ∃ pre q, u.query = some q ∧ s = pre ++ '?' :: q := by
  unfold parseUrlChars at hp
  dsimp only at hp
  by_cases hsch : List.takeWhile (fun c => !(c = ':')) s = []
  · rw [if_pos hsch] at hp
    exact Option.noConfusion hp
  · rw [if_neg hsch] at hp
    split at hp
    case _ rest heq =>
      split at hp
      case _ => exact Option.noConfusion hp
      case _ hpair heq2 =>
        have hu := Option.some.inj hp
        rw [← hu]
        cases hq : List.dropWhile (fun c => !(c = '?'))
            (List.dropWhile (fun c => !(c = '/') && !(c = '?')) rest) with
        | nil => left; simp [hq]
        | cons d q =>
          right
          have hd : d = '?' := by
            have h9 := List.head?_dropWhile_not (fun c => !(c = '?'))
              (List.dropWhile (fun c => !(c = '/') && !(c = '?')) rest)
            rw [hq] at h9
            simpa using h9
          refine ⟨List.takeWhile (fun c => !(c = ':')) s
              ++ ':' :: '/' :: '/'
                :: (List.takeWhile (fun c => !(c = '/') && !(c = '?')) rest
                    ++ List.takeWhile (fun c => !(c = '?'))
                        (List.dropWhile
                          (fun c => !(c = '/') && !(c = '?')) rest)),
            q, by simp [hq], ?_⟩
          have e1 : s = List.takeWhile (fun c => !(c = ':')) s
              ++ ':' :: '/' :: '/' :: rest := by
            conv_lhs => rw [← List.takeWhile_append_dropWhile
              (fun c => !(c = ':')) s]
            rw [heq]
          have e2 : rest
              = List.takeWhile (fun c => !(c = '/') && !(c = '?')) rest
                ++ (List.takeWhile (fun c => !(c = '?'))
                      (List.dropWhile (fun c => !(c = '/') && !(c = '?')) rest)
                    ++ '?' :: q) := by
            conv_lhs => rw [← List.takeWhile_append_dropWhile
              (fun c => !(c = '/') && !(c = '?')) rest]
            congr 1
            conv_lhs => rw [← List.takeWhile_append_dropWhile
              (fun c => !(c = '?'))
              (List.dropWhile (fun c => !(c = '/') && !(c = '?')) rest)]
            rw [hq, hd]
          conv_lhs => rw [e1]
          conv_lhs => rw [e2]
          simp
    case _ => exact Option.noConfusion hp

theorem joinWithChar_splitOnChar (sep : Char) :
    ∀ (q : List Char), joinWithChar sep (splitOnChar sep q) = q
  | [] => rfl
  | c :: cs => by
    unfold splitOnChar
    by_cases hc : c = sep
    · rw [if_pos hc]
      cases hsp : splitOnChar sep cs with
      | nil => exact absurd hsp (splitOnChar_ne_nil sep cs)
      | cons p0 ps0 =>
        show joinWithChar sep ([] :: p0 :: ps0) = c :: cs
        show [] ++ sep :: joinWithChar sep (p0 :: ps0) = c :: cs
        rw [List.nil_append, ← hsp, joinWithChar_splitOnChar sep cs, hc]
    · rw [if_neg hc]
      cases hsp : splitOnChar sep cs with
      | nil => exact absurd hsp (splitOnChar_ne_nil sep cs)
      | cons p0 ps0 =>
        cases ps0 with
        | nil =>
          show c :: p0 = c :: cs
          have := joinWithChar_splitOnChar sep cs
          rw [hsp] at this
          rw [show joinWithChar sep [p0] = p0 from rfl] at this
          rw [this]
        | cons p1 ps1 =>
          show (c :: p0) ++ sep :: joinWithChar sep (p1 :: ps1) = c :: cs
          have := joinWithChar_splitOnChar sep cs
          rw [hsp] at this
          rw [show joinWithChar sep (p0 :: p1 :: ps1)
            = p0 ++ sep :: joinWithChar sep (p1 :: ps1) from rfl] at this
          rw [List.cons_append, this]

theorem secretFree_joinWithChar {sep : Char} (hsep : isTokChar sep = false) :
    ∀ (ps : List (List Char)),
      secretFreeChars (joinWithChar sep ps) = true →
      ∀ p ∈ ps, secretFreeChars p = true
  | [], _, p => by intro hp; cases hp
  | [p0], h, p => by
    intro hp
    rcases List.mem_singleton.mp hp with h1
    subst h1
    exact h
  | p0 :: p1 :: ps, h, p => by
    intro hp
    rw [show joinWithChar sep (p0 :: p1 :: ps)
      = p0 ++ sep :: joinWithChar sep (p1 :: ps) from rfl] at h
    have hsplit := secretFree_append_sep p0 hsep h
    rcases List.mem_cons.mp hp with h1 | h1
    · subst h1; exact hsplit.1
    · exact secretFree_joinWithChar hsep (p1 :: ps) hsplit.2 p h1

/-- Pieces of a secret-free query string are secret-free. -/
theorem secretFree_splitOnChar {q p : List Char}
    (hq : secretFreeChars q = true) (hp : p ∈ splitOnChar '&' q) :
    secretFreeChars p = true := by
  have hj : secretFreeChars (joinWithChar '&' (splitOnChar '&' q)) = true := by
    rw [joinWithChar_splitOnChar]
    exact hq
  exact secretFree_joinWithChar (by decide) (splitOnChar '&' q) hj p hp

/-- Values of a secret-free query string are secret-free. -/
theorem secretFree_param_value {q : List Char}
    (hq : secretFreeChars q = true) :
    ∀ kv ∈ parseParams q, secretFreeChars kv.2 = true := by
  intro kv hkv
  unfold parseParams at hkv
  split_ifs at hkv with hqe
  · cases hkv
  · rcases List.mem_map.mp hkv with ⟨piece, hpiece, hkve⟩
    have hpf : secretFreeChars piece = true := secretFree_splitOnChar hq hpiece
    subst hkve
    unfold splitKV
    cases hdw : piece.dropWhile (fun c => !(c = '=')) with
    | nil => exact secretFreeChars_nil
    | cons e v =>
      have he : e = '=' := by
        have h9 := List.head?_dropWhile_not (fun c => !(c = '=')) piece
        rw [hdw] at h9
        simpa using h9
      have hdecomp : piece
          = piece.takeWhile (fun c => !(c = '=')) ++ '=' :: v := by
        conv_lhs => rw [← List.takeWhile_append_dropWhile
          (fun c => !(c = '=')) piece]
        rw [hdw, he]
      rw [hdecomp] at hpf
      exact (secretFree_append_sep _ (by decide) hpf).2

/-- Keys and values produced by `parseParams` never contain a parameter or
key-value separator (keys), nor a parameter separator (values). -/
theorem parseParams_wf {q : List Char} :
    ∀ kv ∈ parseParams q, ('&' : Char) ∉ kv.1 ∧ ('=' : Char) ∉ kv.1
      ∧ ('&' : Char) ∉ kv.2 := by
  intro kv hkv
  unfold parseParams at hkv
  split_ifs at hkv with hqe
  · cases hkv
  · rcases List.mem_map.mp hkv with ⟨piece, hpiece, hkve⟩
    have hamp : ('&' : Char) ∉ piece :=
      not_mem_of_mem_splitOnChar q piece hpiece
    subst hkve
    unfold splitKV
    refine ⟨?_, ?_, ?_⟩
    · intro hm
      exact hamp ((List.takeWhile_sublist _).subset hm)
    · intro hm
      have := List.mem_takeWhile_imp hm
      simp at this
    · intro hm
      apply hamp
      cases hdw : piece.dropWhile (fun c => !(c = '=')) with
      | nil => rw [hdw] at hm; cases hm
      | cons e v =>
        rw [hdw] at hm
        have : ('&' : Char) ∈ e :: v := List.mem_cons_of_mem _ hm
        rw [← hdw] at this
        exact (List.dropWhile_sublist _).subset this

/-- Embedded from the source (`redactMediaUrl` in the outbound payload
module): parse the URL, scrub only the query-parameter values, and
reserialize only when some value changed; an unparseable URL falls back to
whole-string scrubbing. -/
def redactMediaUrlChars (url : List Char) : List Char :=
  match parseUrlChars url with
  | none => redactChars url
  | some u =>
    let ps := parseParams (u.query.getD [])
    let ps2 := ps.map (fun kv => (kv.1, redactChars kv.2))
    if ps2 = ps then url
    else urlToChars { u with query := some (serializeParams ps2) }

theorem wfUrl_with_query (u : UrlParts) (q : Option (List Char)) :
    wfUrl { u with query := q } = wfUrl u := rfl

theorem map_redact_eq_self {ps : List (List Char × List Char)}
    (h : ∀ kv ∈ ps, secretFreeChars kv.2 = true) :
    ps.map (fun kv => (kv.1, redactChars kv.2)) = ps := by
  conv_rhs => rw [← List.map_id ps]
  apply List.map_congr_left
  intro kv hkv
  rw [redactChars_of_secretFree _ (h kv hkv)]
  rfl

/-- C8 core: scrubbing a parseable media URL preserves its scheme, hostname,
port and path components. -/
theorem redactMediaUrlChars_components {url : List Char} {u : UrlParts}
    (hp : parseUrlChars url = some u) :
    ∃ u2, parseUrlChars (redactMediaUrlChars url) = some u2
      ∧ u2.scheme = u.scheme ∧ u2.hostname = u.hostname
      ∧ u2.port = u.port ∧ u2.path = u.path := by
  unfold redactMediaUrlChars
  rw [hp]
  dsimp only
  by_cases hch : (parseParams (u.query.getD [])).map
      (fun kv => (kv.1, redactChars kv.2)) = parseParams (u.query.getD [])
  · rw [if_pos hch]
    exact ⟨u, hp, rfl, rfl, rfl, rfl⟩
  · rw [if_neg hch]
    refine ⟨_, parseUrlChars_urlToChars
      (by rw [wfUrl_with_query]; exact parseUrlChars_wf hp), rfl, rfl, rfl, rfl⟩

/-- A media URL is clean when its scrubbed surface contains no secret shape:
the query-parameter values for a parseable URL, the whole string otherwise. -/
def urlCleanB (url : List Char) : Bool :=
  match parseUrlChars url with
  | none => secretFreeChars url
  | some u => (parseParams (u.query.getD [])).all (fun kv => secretFreeChars kv.2)

theorem redactMediaUrlChars_of_clean {url : List Char}
    (h : urlCleanB url = true) : redactMediaUrlChars url = url := by
  unfold urlCleanB at h
  unfold redactMediaUrlChars
  cases hp : parseUrlChars url with
  | none =>
    rw [hp] at h
    exact redactChars_of_secretFree url h
  | some u =>
    rw [hp] at h
    dsimp only
    rw [if_pos (map_redact_eq_self (List.all_eq_true.mp h))]

/-- Scrubbing a media URL is idempotent. -/
theorem redactMediaUrlChars_idem (url : List Char) :
    redactMediaUrlChars (redactMediaUrlChars url)
      = redactMediaUrlChars url := by
  cases hp : parseUrlChars url with
  | none =>
    have hout : redactMediaUrlChars url = redactChars url := by
      unfold redactMediaUrlChars
      rw [hp]
    rw [hout]
    have hsf : secretFreeChars (redactChars url) = true :=
      secretFreeChars_redactChars url
    unfold redactMediaUrlChars
    cases hp2 : parseUrlChars (redactChars url) with
    | none => exact redactChars_idem url
    | some u2 =>
      dsimp only
      have hvals : ∀ kv ∈ parseParams (u2.query.getD []),
          secretFreeChars kv.2 = true := by
        rcases parseUrl_query_suffix hp2 with hq | ⟨pre, q, hqe, hdecomp⟩
        · intro kv hkv
          rw [hq] at hkv
          simp [parseParams] at hkv
        · rw [hqe]
          have hsq : secretFreeChars q = true := by
            rw [hdecomp] at hsf
            exact (secretFree_append_sep pre (by decide) hsf).2
          exact secretFree_param_value hsq
      rw [if_pos (map_redact_eq_self hvals)]
  | some u =>
    by_cases hch : (parseParams (u.query.getD [])).map
        (fun kv => (kv.1, redactChars kv.2)) = parseParams (u.query.getD [])
    · have hout : redactMediaUrlChars url = url := by
        unfold redactMediaUrlChars
        rw [hp]
        dsimp only
        rw [if_pos hch]
      rw [hout, hout]
    · have hout : redactMediaUrlChars url
          = urlToChars { u with query := some (serializeParams
              ((parseParams (u.query.getD [])).map
                (fun kv => (kv.1, redactChars kv.2)))) } := by
        unfold redactMediaUrlChars
        rw [hp]
        dsimp only
        rw [if_neg hch]
      have hps2ne : (parseParams (u.query.getD [])).map
          (fun kv => (kv.1, redactChars kv.2)) ≠ [] := by
        intro he
        apply hch
        have h0 : parseParams (u.query.getD []) = [] :=
          List.map_eq_nil_iff.mp he
        rw [h0]
        rfl
      have hwfkv : ∀ kv ∈ (parseParams (u.query.getD [])).map
          (fun kv => (kv.1, redactChars kv.2)),
          ('&' : Char) ∉ kv.1 ∧ ('=' : Char) ∉ kv.1
            ∧ ('&' : Char) ∉ kv.2 := by
        intro kv hkv
        rcases List.mem_map.mp hkv with ⟨kv0, hkv0, hkve⟩
        have h0 := parseParams_wf kv0 hkv0
        rw [← hkve]
        refine ⟨h0.1, h0.2.1, ?_⟩
        intro hm
        rcases mem_redactChars kv0.2 '&' hm with h2 | h2
        · exact h0.2.2 h2
        · exact absurd h2 (by decide)
      have hround : parseParams (serializeParams
          ((parseParams (u.query.getD [])).map
            (fun kv => (kv.1, redactChars kv.2))))
          = (parseParams (u.query.getD [])).map
              (fun kv => (kv.1, redactChars kv.2)) :=
        parseParams_serializeParams hps2ne hwfkv
      have hwf2 : wfUrl { u with query := some (serializeParams
          ((parseParams (u.query.getD [])).map
            (fun kv => (kv.1, redactChars kv.2)))) } = true := by
        rw [wfUrl_with_query]
        exact parseUrlChars_wf hp
      have hp2 := parseUrlChars_urlToChars hwf2
      rw [hout]
      unfold redactMediaUrlChars
      rw [hp2]
      dsimp only
      rw [show ({ u with query := some (serializeParams
          ((parseParams (u.query.getD [])).map
            (fun kv => (kv.1, redactChars kv.2)))) } : UrlParts).query.getD []
          = serializeParams ((parseParams (u.query.getD [])).map
              (fun kv => (kv.1, redactChars kv.2))) from rfl, hround]
      have hfix : ∀ kv ∈ (parseParams (u.query.getD [])).map
          (fun kv => (kv.1, redactChars kv.2)),
          secretFreeChars kv.2 = true := by
        intro kv hkv
        rcases List.mem_map.mp hkv with ⟨kv0, _, hkve⟩
        rw [← hkve]
        exact secretFreeChars_redactChars kv0.2
      rw [if_pos (map_redact_eq_self hfix)]

/-- Modelled from the spec: `redactSensitiveText` (from the logging redact
module, absent from the source tree) replaces every secret-shaped substring
with a masked placeholder and leaves everything else byte-identical. -/
def redactSensitiveText (s : String) : String := String.mk (redactChars s.data)

/-- Embedded from the source (`redactMediaUrl`): scrub only the
query-parameter values of a media URL, leaving scheme, host and path
untouched; fall back to whole-string scrubbing when the URL fails to
parse. -/
def redactMediaUrl (url : String) : String :=
  String.mk (redactMediaUrlChars url.data)

mutual
/-- A channel-data value: the free-form JSON-like tree stored under
`channelData` in a reply payload. -/
inductive CData where
  | str (s : String)
  | num (n : Int)
  | boolean (b : Bool)
  | null
  | arr (items : CList)
  | obj (fields : CFields)
deriving DecidableEq

/-- A list of channel-data values. -/
inductive CList where
  | nil
  | cons (head : CData) (tail : CList)
deriving DecidableEq

/-- The key-value fields of a channel-data object. -/
inductive CFields where
  | nil
  | cons (key : String) (val : CData) (tail : CFields)
deriving DecidableEq
end

mutual
/-- Embedded from the source (`redactChannelDataStrings`): scrub every
string leaf of the channel-data tree, walking objects and arrays, passing
other primitives through unchanged. -/
def redactChannelDataStrings : CData → CData
  | .str s => .str (redactSensitiveText s)
  | .num n => .num n
  | .boolean b => .boolean b
  | .null => .null
  | .arr items => .arr (redactCList items)
  | .obj fields => .obj (redactCFields fields)

/-- Scrub every element of a channel-data array. -/
def redactCList : CList → CList
  | .nil => .nil
  | .cons h t => .cons (redactChannelDataStrings h) (redactCList t)

/-- Scrub every value of a channel-data object. -/
def redactCFields : CFields → CFields
  | .nil => .nil
  | .cons k v t => .cons k (redactChannelDataStrings v) (redactCFields t)
end

mutual
/-- No string leaf of the channel-data value contains a secret shape. -/
def cdataCleanB : CData → Bool
  | .str s => secretFreeChars s.data
  | .num _ => true
  | .boolean _ => true
  | .null => true
  | .arr items => clistCleanB items
  | .obj fields => cfieldsCleanB fields

/-- No string leaf of the channel-data array contains a secret shape. -/
def clistCleanB : CList → Bool
  | .nil => true
  | .cons h t => cdataCleanB h && clistCleanB t

/-- No string leaf of the channel-data object contains a secret shape. -/
def cfieldsCleanB : CFields → Bool
  | .nil => true
  | .cons _ v t => cdataCleanB v && cfieldsCleanB t
end

theorem redactSensitiveText_idem (s : String) :
    redactSensitiveText (redactSensitiveText s) = redactSensitiveText s :=
  congrArg String.mk (redactChars_idem s.data)

theorem redactSensitiveText_of_clean {s : String}
    (h : secretFreeChars s.data = true) : redactSensitiveText s = s :=
  congrArg String.mk (redactChars_of_secretFree s.data h)

theorem redactMediaUrl_idem (url : String) :
    redactMediaUrl (redactMediaUrl url) = redactMediaUrl url :=
  congrArg String.mk (redactMediaUrlChars_idem url.data)

theorem redactMediaUrl_of_clean {url : String}
    (h : urlCleanB url.data = true) : redactMediaUrl url = url :=
  congrArg String.mk (redactMediaUrlChars_of_clean h)

mutual
theorem redactChannelDataStrings_idem :
    ∀ d, redactChannelDataStrings (redactChannelDataStrings d)
      = redactChannelDataStrings d
  | .str s => congrArg CData.str (redactSensitiveText_idem s)
  | .num _ => rfl
  | .boolean _ => rfl
  | .null => rfl
  | .arr items => congrArg CData.arr (redactCList_idem items)
  | .obj fields => congrArg CData.obj (redactCFields_idem fields)

theorem redactCList_idem :
    ∀ l, redactCList (redactCList l) = redactCList l
  | .nil => rfl
  | .cons h t => by
    show CList.cons _ _ = CList.cons _ _
    rw [redactChannelDataStrings_idem h, redactCList_idem t]

theorem redactCFields_idem :
    ∀ f, redactCFields (redactCFields f) = redactCFields f
  | .nil => rfl
  | .cons k v t => by
    show CFields.cons _ _ _ = CFields.cons _ _ _
    rw [redactChannelDataStrings_idem v, redactCFields_idem t]
end

mutual
theorem redactChannelDataStrings_of_clean :
    ∀ d, cdataCleanB d = true → redactChannelDataStrings d = d
  | .str s => fun h => congrArg CData.str (redactSensitiveText_of_clean h)
  | .num _ => fun _ => rfl
  | .boolean _ => fun _ => rfl
  | .null => fun _ => rfl
  | .arr items => fun h => congrArg CData.arr (redactCList_of_clean items h)
  | .obj fields => fun h => congrArg CData.obj (redactCFields_of_clean fields h)

theorem redactCList_of_clean :
    ∀ l, clistCleanB l = true → redactCList l = l
  | .nil => fun _ => rfl
  | .cons h t => fun hc => by
    have hc2 := Bool.and_eq_true _ _ ▸ hc
    show CList.cons _ _ = CList.cons h t
    rw [redactChannelDataStrings_of_clean h hc2.1, redactCList_of_clean t hc2.2]

theorem redactCFields_of_clean :
    ∀ f, cfieldsCleanB f = true → redactCFields f = f
  | .nil => fun _ => rfl
  | .cons k v t => fun hc => by
    have hc2 := Bool.and_eq_true _ _ ▸ hc
    show CFields.cons _ _ _ = CFields.cons k v t
    rw [redactChannelDataStrings_of_clean v hc2.1, redactCFields_of_clean t hc2.2]
end

theorem redactChars_ne_nil : ∀ {l : List Char}, l ≠ [] → redactChars l ≠ [] := by
  intro l hl
  cases l with
  | nil => exact absurd rfl hl
  | cons c cs =>
    by_cases hc : isTokChar c
    · rw [redactChars_cons_tok hc]
      intro he
      have h1 := (List.append_eq_nil.mp he).1
      unfold redactRun at h1
      split at h1
      · exact absurd (List.append_eq_nil.mp h1).2 (by decide)
      · rw [List.takeWhile_cons_of_pos hc] at h1
        exact List.noConfusion h1
    · rw [redactChars_cons_sep (by simpa using hc)]
      intro he
      exact List.noConfusion he

theorem redactMediaUrlChars_ne_nil {l : List Char} (h : l ≠ []) :
    redactMediaUrlChars l ≠ [] := by
  unfold redactMediaUrlChars
  cases hp : parseUrlChars l with
  | none => exact redactChars_ne_nil h
  | some u =>
    dsimp only
    split_ifs
    · exact h
    · intro he
      unfold urlToChars at he
      exact List.noConfusion (List.append_eq_nil.mp he).2

theorem redactSensitiveText_ne_empty {s : String} (h : s ≠ "") :
    redactSensitiveText s ≠ "" := by
  intro he
  have hd : s.data ≠ [] := fun h0 => h (by
    rw [show s = String.mk s.data from rfl, h0])
  exact redactChars_ne_nil hd (congrArg String.data he)

theorem redactMediaUrl_ne_empty {s : String} (h : s ≠ "") :
    redactMediaUrl s ≠ "" := by
  intro he
  have hd : s.data ≠ [] := fun h0 => h (by
    rw [show s = String.mk s.data from rfl, h0])
  exact redactMediaUrlChars_ne_nil hd (congrArg String.data he)

/-- An outbound reply payload: free text, a single media URL, a list of
media URLs, a nested per-channel data object, and pass-through metadata. -/
structure ReplyPayload where
  text : Option String := none
  mediaUrl : Option String := none
  mediaUrls : Option (List String) := none
  channelData : Option CFields := none
  replyToId : Option String := none
deriving DecidableEq

/-- Embedded from the source (`redactOutboundPayload`): shallow-copy the
payload, scrub the text when present and non-empty, scrub each media URL,
and rebuild the channel-data tree with every string leaf scrubbed; other
fields pass through unchanged. The emptiness checks mirror the
truthiness guards of the source. -/
def redactOutboundPayload (p : ReplyPayload) : ReplyPayload :=
  { p with
    text :=
      match p.text with
      | none => none
      | some t => if t = "" then some t else some (redactSensitiveText t)
    mediaUrl :=
      match p.mediaUrl with
      | none => none
      | some m => if m = "" then some m else some (redactMediaUrl m)
    mediaUrls :=
      match p.mediaUrls with
      | none => none
      | some l => some (l.map redactMediaUrl)
    channelData :=
      match p.channelData with
      | none => none
      | some d => some (redactCFields d) }

/-- The payload contains no secret-shaped match anywhere the redactor
scans: text, media-URL query values, and channel-data string leaves. -/
def payloadCleanB (p : ReplyPayload) : Bool :=
  (match p.text with
   | none => true
   | some t => secretFreeChars t.data) &&
  (match p.mediaUrl with
   | none => true
   | some m => urlCleanB m.data) &&
  (match p.mediaUrls with
   | none => true
   | some l => l.all (fun m => urlCleanB m.data)) &&
  (match p.channelData with
   | none => true
   | some d => cfieldsCleanB d)

/-- C7: outbound DLP redaction is idempotent on every payload, and a clean
payload (no secret-pattern match in text, media-URL query values, or
channel-data string leaves) is returned byte-for-byte unchanged in every
field. -/
theorem redactOutboundPayload_idem_and_clean :
    (∀ p, redactOutboundPayload (redactOutboundPayload p)
      = redactOutboundPayload p)
    ∧ (∀ p, payloadCleanB p = true → redactOutboundPayload p = p) := by
  constructor
  · intro p
    cases p with
    | mk text mediaUrl mediaUrls channelData replyToId =>
      simp only [redactOutboundPayload]
      congr 1
      · cases text with
        | none => rfl
        | some t =>
          dsimp only
          by_cases ht : t = ""
          · simp [ht]
          · rw [if_neg ht]
            show (if redactSensitiveText t = "" then _ else _) = _
            rw [if_neg (redactSensitiveText_ne_empty ht),
              redactSensitiveText_idem]
      · cases mediaUrl with
        | none => rfl
        | some m =>
          dsimp only
          by_cases hm : m = ""
          · simp [hm]
          · rw [if_neg hm]
            show (if redactMediaUrl m = "" then _ else _) = _
            rw [if_neg (redactMediaUrl_ne_empty hm), redactMediaUrl_idem]
      · cases mediaUrls with
        | none => rfl
        | some l =>
          show some ((l.map redactMediaUrl).map redactMediaUrl) = _
          rw [List.map_map]
          congr 1
          apply List.map_congr_left
          intro m _
          exact redactMediaUrl_idem m
      · cases channelData with
        | none => rfl
        | some d =>
          show some (redactCFields (redactCFields d)) = _
          rw [redactCFields_idem]
  · intro p hc
    unfold payloadCleanB at hc
    simp only [Bool.and_eq_true] at hc
    obtain ⟨⟨⟨h1, h2⟩, h3⟩, h4⟩ := hc
    cases p with
    | mk text mediaUrl mediaUrls channelData replyToId =>
      simp only [redactOutboundPayload]
      congr 1
      · cases text with
        | none => rfl
        | some t =>
          dsimp only
          by_cases ht : t = ""
          · simp [ht]
          · rw [if_neg ht, redactSensitiveText_of_clean h1]
      · cases mediaUrl with
        | none => rfl
        | some m =>
          dsimp only
          by_cases hm : m = ""
          · simp [hm]
          · rw [if_neg hm, redactMediaUrl_of_clean h2]
      · cases mediaUrls with
        | none => rfl
        | some l =>
          show some (l.map redactMediaUrl) = some l
          congr 1
          conv_rhs => rw [← List.map_id l]
          apply List.map_congr_left
          intro m hm
          have := List.all_eq_true.mp h3 m hm
          exact redactMediaUrl_of_clean this
      · cases channelData with
        | none => rfl
        | some d =>
          show some (redactCFields d) = some d
          rw [redactCFields_of_clean d h4]

/-- Concrete instance of C7: double redaction is a no-op and a clean payload
is returned unchanged. -/
theorem redactOutboundPayload_idem_and_clean_witness :
    redactOutboundPayload (redactOutboundPayload
        { text := some "Hello world",
          mediaUrl := some "https://example.com/img.png",
          mediaUrls := some ["https://example.com/a.png"],
          channelData := some (.cons "telegram"
            (.obj (.cons "buttons" (.arr .nil) .nil)) .nil) })
      = redactOutboundPayload
        { text := some "Hello world",
          mediaUrl := some "https://example.com/img.png",
          mediaUrls := some ["https://example.com/a.png"],
          channelData := some (.cons "telegram"
            (.obj (.cons "buttons" (.arr .nil) .nil)) .nil) }
    ∧ (payloadCleanB
        { text := some "Hello world",
          mediaUrl := some "https://example.com/img.png",
          mediaUrls := some ["https://example.com/a.png"],
          channelData := some (.cons "telegram"
            (.obj (.cons "buttons" (.arr .nil) .nil)) .nil) } = true
      ∧ redactOutboundPayload
        { text := some "Hello world",
          mediaUrl := some "https://example.com/img.png",
          mediaUrls := some ["https://example.com/a.png"],
          channelData := some (.cons "telegram"
            (.obj (.cons "buttons" (.arr .nil) .nil)) .nil) }
        = { text := some "Hello world",
            mediaUrl := some "https://example.com/img.png",
            mediaUrls := some ["https://example.com/a.png"],
            channelData := some (.cons "telegram"
              (.obj (.cons "buttons" (.arr .nil) .nil)) .nil) }) :=
  ⟨redactOutboundPayload_idem_and_clean.1 _,
   by decide,
   redactOutboundPayload_idem_and_clean.2 _ (by decide)⟩

/-- C8: scrubbing a media URL rewrites only the query-parameter values; the
scheme, hostname, port and path of the redacted URL are identical to those
of the input URL. -/
theorem redactMediaUrl_preserves_non_query :
    ∀ (url : String) (u : UrlParts), parseUrlChars url.data = some u →
      ∃ u2, parseUrlChars (redactMediaUrl url).data = some u2
        ∧ u2.scheme = u.scheme ∧ u2.hostname = u.hostname
        ∧ u2.port = u.port ∧ u2.path = u.path := by
  intro url u hp
  unfold redactMediaUrl
  exact redactMediaUrlChars_components hp

/-- Concrete instance of C8: scrubbing a media URL whose query carries a
secret keeps scheme, host and path intact. -/
theorem redactMediaUrl_preserves_non_query_witness :
    ∃ u2, parseUrlChars (redactMediaUrl
        "https://example.com/img.png?token=sk-proj-1234567890abcdefghijklmnop").data
      = some u2
      ∧ u2.scheme = "https".data ∧ u2.hostname = "example.com".data
      ∧ u2.port = none ∧ u2.path = "/img.png".data :=
  redactMediaUrl_preserves_non_query
    "https://example.com/img.png?token=sk-proj-1234567890abcdefghijklmnop"
    ⟨"https".data, "example.com".data, none, "/img.png".data,
      some "token=sk-proj-1234567890abcdefghijklmnop".data⟩
    (by decide)

/-! ## SSRF-safe fetch guard

`src/infra/net/ssrf.ts` and the fetch-guard module are not in the source
tree (only the hardening test suite is), so the guard is modelled from the
spec: per hop, parse the URL and reject non-HTTP schemes, check the
hostname allowlist, classify the destination address (an IP literal in any
alternate numeric encoding, or the first address returned by the injected
DNS lookup) against the private/internal ranges, and only then invoke the
transport; redirects are re-validated as brand-new hops, with visited-URL
loop detection, a numeric redirect budget, and credential-header stripping
on cross-origin redirects. The transport is instrumented with a trace of
its invocations so that "transport never invoked" is provable.
-/

/-- The five terminal rejection kinds of the fetch guard. -/
inductive GuardError where
  | invalidProtocol
  | allowlistRejected
  | privateBlocked
  | redirectLoop
  | redirectLimit
deriving DecidableEq, Repr

/-- Fetch policy: optional hostname allowlist and private-network opt-in. -/
structure FetchPolicy where
  hostnameAllowlist : Option (List String) := none
  allowPrivateNetwork : Bool := false

/-- A resolved network address. -/
inductive IpAddr where
  | v4 (n : Nat)
  | v6 (n : Nat)
deriving DecidableEq, Repr

/-- Value of one digit in the given base, if valid. -/
def digitVal? (base : Nat) (c : Char) : Option Nat :=
  let v : Nat :=
    if '0' ≤ c ∧ c ≤ '9' then c.toNat - '0'.toNat
    else if 'a' ≤ c ∧ c ≤ 'f' then 10 + (c.toNat - 'a'.toNat)
    else if 'A' ≤ c ∧ c ≤ 'F' then 10 + (c.toNat - 'A'.toNat)
    else 99
  if v < base then some v else none

/-- Parse a non-empty digit string in the given base. -/
def parseNatBase (base : Nat) (cs : List Char) : Option Nat :=
  if cs = [] then none
  else
    cs.foldl
      (fun acc c =>
        match acc, digitVal? base c with
        | some a, some d => some (a * base + d)
        | _, _ => none)
      (some 0)

/-- Parse one dotted-IPv4 part: decimal, octal (leading zero), or
hexadecimal (0x prefix) — the classic alternate encodings. -/
def parseIpv4Part (cs : List Char) : Option Nat :=
  match cs with
  | '0' :: 'x' :: rest => parseNatBase 16 rest
  | '0' :: 'X' :: rest => parseNatBase 16 rest
  | '0' :: rest => if rest = [] then some 0 else parseNatBase 8 rest
  | _ => parseNatBase 10 cs

/-- Parse an IPv4 literal in any legacy form: one to four parts, the last
part filling the remaining bytes. -/
def parseIpv4 (host : List Char) : Option Nat :=
  match splitOnChar '.' host with
  | [a] =>
    (parseIpv4Part a).bind fun v =>
      if v < 4294967296 then some v else none
  | [a, b] =>
    (parseIpv4Part a).bind fun va =>
      (parseIpv4Part b).bind fun vb =>
        if va < 256 ∧ vb < 16777216 then some (va * 16777216 + vb) else none
  | [a, b, c] =>
    (parseIpv4Part a).bind fun va =>
      (parseIpv4Part b).bind fun vb =>
        (parseIpv4Part c).bind fun vc =>
          if va < 256 ∧ vb < 256 ∧ vc < 65536 then
            some (va * 16777216 + vb * 65536 + vc)
          else none
  | [a, b, c, d] =>
    (parseIpv4Part a).bind fun va =>
      (parseIpv4Part b).bind fun vb =>
        (parseIpv4Part c).bind fun vc =>
          (parseIpv4Part d).bind fun vd =>
            if va < 256 ∧ vb < 256 ∧ vc < 256 ∧ vd < 256 then
              some (va * 16777216 + vb * 65536 + vc * 256 + vd)
            else none
  | _ => none

/-- Parse one 16-bit IPv6 group (up to four hex digits). -/
def parseIpv6Group (cs : List Char) : Option Nat :=
  if cs.length ≤ 4 then
    (parseNatBase 16 cs).bind fun g => if g < 65536 then some g else none
  else none

/-- Parse colon-separated IPv6 pieces; an embedded dotted IPv4 is allowed
in the last piece and contributes two groups. -/
def parseV6Pieces : List (List Char) → Option (List Nat)
  | [] => some []
  | [p] =>
    if p.contains '.' then
      (parseIpv4 p).map fun v => [v / 65536, v % 65536]
    else (parseIpv6Group p).map fun g => [g]
  | p :: ps =>
    (parseIpv6Group p).bind fun g =>
      (parseV6Pieces ps).map fun rest => g :: rest

/-- Split at the first double colon, when present. -/
def splitDoubleColon : List Char → Option (List Char × List Char)
  | [] => none
  | ':' :: ':' :: rest => some ([], rest)
  | c :: rest => (splitDoubleColon rest).map fun pr => (c :: pr.1, pr.2)

/-- Whether the text still contains a double colon. -/
def containsDoubleColon : List Char → Bool
  | [] => false
  | ':' :: ':' :: _ => true
  | _ :: rest => containsDoubleColon rest

/-- Pack eight 16-bit groups into one 128-bit value. -/
def groupsToNat (gs : List Nat) : Nat :=
  gs.foldl (fun acc g => acc * 65536 + g) 0

/-- One side of a double colon: empty, or colon-separated groups. -/
def parseV6Side (cs : List Char) : Option (List Nat) :=
  if cs = [] then some [] else parseV6Pieces (splitOnChar ':' cs)

/-- Parse an IPv6 literal (without brackets), including the compressed
double-colon form and the IPv4-mapped form. -/
def parseIpv6 (cs : List Char) : Option Nat :=
  match splitDoubleColon cs with
  | some (l, r) =>
    if containsDoubleColon r then none
    else
      (parseV6Side l).bind fun gl =>
        (parseV6Side r).bind fun gr =>
          if gl.length + gr.length ≤ 7 then
            some (groupsToNat
              (gl ++ List.replicate (8 - gl.length - gr.length) 0 ++ gr))
          else none
  | none =>
    (parseV6Side cs).bind fun gs =>
      if gs.length = 8 then some (groupsToNat gs) else none

/-- Classify a hostname as an IP literal, normalizing every alternate
numeric encoding: dotted decimal/octal/hex, packed forms, bracketed IPv6,
compressed IPv6, and IPv4-mapped IPv6. -/
def parseIpLiteral (hostname : List Char) : Option IpAddr :=
  match hostname with
  | '[' :: rest =>
    if rest.getLast? = some ']' then (parseIpv6 rest.dropLast).map IpAddr.v6
    else none
  | _ =>
    if hostname.contains ':' then (parseIpv6 hostname).map IpAddr.v6
    else (parseIpv4 hostname).map IpAddr.v4

/-- Private/internal IPv4 ranges: this-network, loopback, RFC1918,
link-local. -/
def isPrivateV4 (n : Nat) : Bool :=
  let a := n / 16777216 % 256
  let b := n / 65536 % 256
  a = 0 || a = 10 || a = 127 || (a = 169 && b = 254)
    || (a = 172 && 16 ≤ b && b ≤ 31) || (a = 192 && b = 168)

/-- Private/internal addresses: blocked v4 ranges, unspecified and loopback
IPv6, IPv4-mapped IPv6 (classified by the mapped v4), link-local and
unique-local IPv6. -/
def isPrivateIp : IpAddr → Bool
  | .v4 n => isPrivateV4 n
  | .v6 n =>
    n = 0 || n = 1
      || (n / 4294967296 = 65535 && isPrivateV4 (n % 4294967296))
      || n / 2 ^ 118 = 1018
      || n / 2 ^ 121 = 126

/-- Lower-case the ASCII letters of a header name. -/
def asciiLower (s : String) : String :=
  String.mk (s.data.map fun c =>
    if 'A' ≤ c ∧ c ≤ 'Z' then Char.ofNat (c.toNat + 32) else c)

/-- The credential-bearing request headers stripped on cross-origin
redirects: Authorization, Proxy-Authorization, and the Cookie family. -/
def SENSITIVE_HEADERS : List String :=
  ["authorization", "proxy-authorization", "cookie", "cookie2"]

/-- Remove the credential-bearing headers, preserving all others. -/
def stripSensitiveHeaders (hs : List (String × String)) :
    List (String × String) :=
  hs.filter fun kv => !(SENSITIVE_HEADERS.contains (asciiLower kv.1))

/-- Match a hostname against one allowlist entry: exact name or
subdomain wildcard. -/
def hostMatchesPattern (host : List Char) (pat : String) : Bool :=
  match pat.data with
  | '*' :: '.' :: suffix => ('.' :: suffix).isSuffixOf host
  | _ => host = pat.data

/-- A hostname passes the allowlist when none is configured or some entry
matches. -/
def hostnameAllowed (policy : FetchPolicy) (host : List Char) : Bool :=
  match policy.hostnameAllowlist with
  | none => true
  | some pats => pats.any (hostMatchesPattern host)

/-- What the injected transport returns for one hop. -/
inductive FetchResponse where
  | ok
  | redirect (location : List Char)
deriving DecidableEq, Repr

/-- Validate one hop before any transport activity: parse, scheme check,
allowlist check, address classification (IP literal in any encoding, or
injected DNS lookup) against the private ranges. -/
def validateHop (policy : FetchPolicy) (lookupFn : List Char → List IpAddr)
    (url : List Char) : Except GuardError UrlParts :=
  match parseUrlChars url with
  | none => .error .invalidProtocol
  | some u =>
    if u.scheme = "http".data ∨ u.scheme = "https".data then
      if hostnameAllowed policy u.hostname then
        match
          (match parseIpLiteral u.hostname with
           | some ip => some ip
           | none => (lookupFn u.hostname).head?) with
        | none => .error .privateBlocked
        | some ip =>
          if isPrivateIp ip && !policy.allowPrivateNetwork then
            .error .privateBlocked
          else .ok u
      else .error .allowlistRejected
    else .error .invalidProtocol

/-- Resolve a Location header against the current URL: root-relative
targets keep the current origin, absolute targets stand alone. -/
def resolveLocation (current : UrlParts) (loc : List Char) : List Char :=
  match loc with
  | '/' :: _ =>
    current.scheme ++ ':' :: '/' :: '/'
      :: (current.hostname ++ portStr current.port ++ loc)
  | _ => loc

/-- Whether two URLs share scheme, hostname and port. -/
def sameOrigin (a b : List Char) : Bool :=
  match parseUrlChars a, parseUrlChars b with
  | some ua, some ub =>
    decide (ua.scheme = ub.scheme ∧ ua.hostname = ub.hostname
      ∧ ua.port = ub.port)
  | _, _ => false

/-- The redirect-following loop: validate, fetch, then follow redirects
with loop detection, redirect budget (the fuel), and cross-origin header
stripping; returns the outcome and the trace of transport invocations. -/
def guardLoop (fetchImpl : List Char → List (String × String) → FetchResponse)
    (lookupFn : List Char → List IpAddr) (policy : FetchPolicy) :
    Nat → List Char → List (String × String) → List (List Char) →
    List (List Char × List (String × String)) →
    Except GuardError Unit × List (List Char × List (String × String))
  | fuel, url, headers, visited, trace =>
    match validateHop policy lookupFn url with
    | .error e => (.error e, trace)
    | .ok u =>
      let trace2 := trace ++ [(url, headers)]
      match fetchImpl url headers with
      | .ok => (.ok (), trace2)
      | .redirect loc =>
        let target := resolveLocation u loc
        if target ∈ visited then (.error .redirectLoop, trace2)
        else
          match fuel with
          | 0 => (.error .redirectLimit, trace2)
          | fuel2 + 1 =>
            let headers2 :=
              if sameOrigin url target then headers
              else stripSensitiveHeaders headers
            guardLoop fetchImpl lookupFn policy fuel2 target headers2
              (target :: visited) trace2

/-- Modelled from the spec: `fetchWithSsrFGuard` with an injected transport
and DNS lookup; the second component of the result is the trace of
transport invocations (URL and headers per call). -/
def fetchWithSsrFGuard
    (fetchImpl : List Char → List (String × String) → FetchResponse)
    (lookupFn : List Char → List IpAddr) (policy : FetchPolicy)
    (maxRedirects : Nat) (url : List Char)
    (headers : List (String × String)) :
    Except GuardError Unit × List (List Char × List (String × String)) :=
  guardLoop fetchImpl lookupFn policy maxRedirects url headers [url] []

theorem guardLoop_error {fi : List Char → List (String × String) → FetchResponse}
    {lk : List Char → List IpAddr} {policy : FetchPolicy} {fuel : Nat}
    {url : List Char} {headers : List (String × String)}
    {visited : List (List Char)}
    {trace : List (List Char × List (String × String))} {e : GuardError}
    (hv : validateHop policy lk url = .error e) :
    guardLoop fi lk policy fuel url headers visited trace = (.error e, trace) := by
  rw [guardLoop, hv]

theorem guardLoop_ok {fi : List Char → List (String × String) → FetchResponse}
    {lk : List Char → List IpAddr} {policy : FetchPolicy} {fuel : Nat}
    {url : List Char} {headers : List (String × String)}
    {visited : List (List Char)}
    {trace : List (List Char × List (String × String))} {u : UrlParts}
    (hv : validateHop policy lk url = .ok u) (hf : fi url headers = .ok) :
    guardLoop fi lk policy fuel url headers visited trace
      = (.ok (), trace ++ [(url, headers)]) := by
  rw [guardLoop, hv, hf]

theorem guardLoop_redirect
    {fi : List Char → List (String × String) → FetchResponse}
    {lk : List Char → List IpAddr} {policy : FetchPolicy} {fuel : Nat}
    {url : List Char} {headers : List (String × String)}
    {visited : List (List Char)}
    {trace : List (List Char × List (String × String))} {u : UrlParts}
    {loc : List Char}
    (hv : validateHop policy lk url = .ok u)
    (hf : fi url headers = .redirect loc) :
    guardLoop fi lk policy fuel url headers visited trace
      = (if resolveLocation u loc ∈ visited then
          (.error .redirectLoop, trace ++ [(url, headers)])
         else
          match fuel with
          | 0 => (.error .redirectLimit, trace ++ [(url, headers)])
          | fuel2 + 1 =>
            guardLoop fi lk policy fuel2 (resolveLocation u loc)
              (if sameOrigin url (resolveLocation u loc) then headers
               else stripSensitiveHeaders headers)
              (resolveLocation u loc :: visited)
              (trace ++ [(url, headers)])) := by
  rw [guardLoop, hv, hf]

/-- C1: a URL whose hostname is an IP literal classified private under any
alternate numeric encoding is rejected with the private/blocked error under
the default policy, and the injected transport is never invoked (the trace
is empty), for every transport and DNS function. -/
theorem fetchGuard_blocks_private_ip_literal :
    ∀ (fetchImpl : List Char → List (String × String) → FetchResponse)
      (lookupFn : List Char → List IpAddr) (policy : FetchPolicy)
      (maxRedirects : Nat) (url : List Char)
      (headers : List (String × String)) (u : UrlParts) (ip : IpAddr),
      parseUrlChars url = some u →
      (u.scheme = "http".data ∨ u.scheme = "https".data) →
      policy.hostnameAllowlist = none →
      policy.allowPrivateNetwork = false →
      parseIpLiteral u.hostname = some ip →
      isPrivateIp ip = true →
      fetchWithSsrFGuard fetchImpl lookupFn policy maxRedirects url headers
        = (.error .privateBlocked, []) := by
  intro fi lk policy maxR url headers u ip hp hsch hal hapn hip hpriv
  have hv : validateHop policy lk url = .error .privateBlocked := by
    unfold validateHop
    rw [hp]
    dsimp only
    rw [if_pos hsch]
    have hallow : hostnameAllowed policy u.hostname = true := by
      unfold hostnameAllowed
      rw [hal]
    rw [if_pos hallow, hip]
    dsimp only
    rw [if_pos (by rw [hpriv, hapn]; rfl)]
  unfold fetchWithSsrFGuard
  exact guardLoop_error hv

/-- Concrete instances of C1: the guard blocks the loopback/private IP
literal under each alternate encoding — dotted octal, packed hexadecimal,
packed decimal, all-zeros IPv4, all-zeros IPv6, IPv4-mapped IPv6 and
bracketed IPv6 loopback — without invoking the transport. -/
theorem fetchGuard_blocks_private_ip_literal_witness :
    fetchWithSsrFGuard (fun _ _ => .ok) (fun _ => []) {} 5
        "http://0177.0.0.1:8080/internal".data []
      = (.error .privateBlocked, [])
    ∧ fetchWithSsrFGuard (fun _ _ => .ok) (fun _ => []) {} 5
        "http://0x7f000001/internal".data []
      = (.error .privateBlocked, [])
    ∧ fetchWithSsrFGuard (fun _ _ => .ok) (fun _ => []) {} 5
        "http://2130706433/".data []
      = (.error .privateBlocked, [])
    ∧ fetchWithSsrFGuard (fun _ _ => .ok) (fun _ => []) {} 5
        "http://0.0.0.0:8080/".data []
      = (.error .privateBlocked, [])
    ∧ fetchWithSsrFGuard (fun _ _ => .ok) (fun _ => []) {} 5
        "http://[::]:8080/".data []
      = (.error .privateBlocked, [])
    ∧ fetchWithSsrFGuard (fun _ _ => .ok) (fun _ => []) {} 5
        "http://[::ffff:127.0.0.1]:8080/".data []
      = (.error .privateBlocked, [])
    ∧ fetchWithSsrFGuard (fun _ _ => .ok) (fun _ => []) {} 5
        "http://[::1]/".data []
      = (.error .privateBlocked, []) :=
  ⟨fetchGuard_blocks_private_ip_literal _ _ _ _ _ _
      ⟨"http".data, "0177.0.0.1".data, some "8080".data, "/internal".data, none⟩
      (.v4 2130706433) (by decide) (by decide) rfl rfl (by decide) (by decide),
   fetchGuard_blocks_private_ip_literal _ _ _ _ _ _
      ⟨"http".data, "0x7f000001".data, none, "/internal".data, none⟩
      (.v4 2130706433) (by decide) (by decide) rfl rfl (by decide) (by decide),
   fetchGuard_blocks_private_ip_literal _ _ _ _ _ _
      ⟨"http".data, "2130706433".data, none, "/".data, none⟩
      (.v4 2130706433) (by decide) (by decide) rfl rfl (by decide) (by decide),
   fetchGuard_blocks_private_ip_literal _ _ _ _ _ _
      ⟨"http".data, "0.0.0.0".data, some "8080".data, "/".data, none⟩
      (.v4 0) (by decide) (by decide) rfl rfl (by decide) (by decide),
   fetchGuard_blocks_private_ip_literal _ _ _ _ _ _
      ⟨"http".data, "[::]".data, some "8080".data, "/".data, none⟩
      (.v6 0) (by decide) (by decide) rfl rfl (by decide) (by decide),
   fetchGuard_blocks_private_ip_literal _ _ _ _ _ _
      ⟨"http".data, "[::ffff:127.0.0.1]".data, some "8080".data, "/".data, none⟩
      (.v6 281472812449793) (by decide) (by decide) rfl rfl (by decide) (by decide),
   fetchGuard_blocks_private_ip_literal _ _ _ _ _ _
      ⟨"http".data, "[::1]".data, none, "/".data, none⟩
      (.v6 1) (by decide) (by decide) rfl rfl (by decide) (by decide)⟩

theorem guardLoop_trace_validated
    (fi : List Char → List (String × String) → FetchResponse)
    (lk : List Char → List IpAddr) (policy : FetchPolicy) :
    ∀ (fuel : Nat) (url : List Char) (headers : List (String × String))
      (visited : List (List Char))
      (trace : List (List Char × List (String × String))),
      (∀ e ∈ trace, ∃ u, validateHop policy lk e.1 = .ok u) →
      ∀ e ∈ (guardLoop fi lk policy fuel url headers visited trace).2,
        ∃ u, validateHop policy lk e.1 = .ok u := by
  intro fuel
  induction fuel with
  | zero =>
    intro url headers visited trace htrace e he
    cases hv : validateHop policy lk url with
    | error err =>
      rw [guardLoop_error hv] at he
      exact htrace e he
    | ok u =>
      cases hf : fi url headers with
      | ok =>
        rw [guardLoop_ok hv hf] at he
        rcases List.mem_append.mp he with h | h
        · exact htrace e h
        · rw [List.mem_singleton.mp h]
          exact ⟨u, hv⟩
      | redirect loc =>
        rw [guardLoop_redirect hv hf] at he
        by_cases hmem : resolveLocation u loc ∈ visited
        · rw [if_pos hmem] at he
          rcases List.mem_append.mp he with h | h
          · exact htrace e h
          · rw [List.mem_singleton.mp h]
            exact ⟨u, hv⟩
        · rw [if_neg hmem] at he
          have he2 : e ∈ trace ++ [(url, headers)] := he
          rcases List.mem_append.mp he2 with h | h
          · exact htrace e h
          · rw [List.mem_singleton.mp h]
            exact ⟨u, hv⟩
  | succ n ih =>
    intro url headers visited trace htrace e he
    cases hv : validateHop policy lk url with
    | error err =>
      rw [guardLoop_error hv] at he
      exact htrace e he
    | ok u =>
      cases hf : fi url headers with
      | ok =>
        rw [guardLoop_ok hv hf] at he
        rcases List.mem_append.mp he with h | h
        · exact htrace e h
        · rw [List.mem_singleton.mp h]
          exact ⟨u, hv⟩
      | redirect loc =>
        rw [guardLoop_redirect hv hf] at he
        by_cases hmem : resolveLocation u loc ∈ visited
        · rw [if_pos hmem] at he
          rcases List.mem_append.mp he with h | h
          · exact htrace e h
          · rw [List.mem_singleton.mp h]
            exact ⟨u, hv⟩
        · rw [if_neg hmem] at he
          have he2 : e ∈ (guardLoop fi lk policy n (resolveLocation u loc)
              (if sameOrigin url (resolveLocation u loc) then headers
               else stripSensitiveHeaders headers)
              (resolveLocation u loc :: visited)
              (trace ++ [(url, headers)])).2 := he
          refine ih _ _ _ _ ?_ e he2
          intro e2 her
          rcases List.mem_append.mp her with h | h
          · exact htrace e2 h
          · rw [List.mem_singleton.mp h]
            exact ⟨u, hv⟩

/-- C2: every transport invocation of the guard — including every redirect
hop — is preceded by a successful re-validation of its URL (scheme check,
allowlist check, address classification); and a redirect whose target fails
validation (for instance, resolves to a private address) rejects the whole
fetch with that hop never fetched. -/
theorem fetchGuard_revalidates_every_hop :
    (∀ (fi : List Char → List (String × String) → FetchResponse)
       (lk : List Char → List IpAddr) (policy : FetchPolicy)
       (maxRedirects : Nat) (url : List Char)
       (headers : List (String × String)),
       ∀ e ∈ (fetchWithSsrFGuard fi lk policy maxRedirects url headers).2,
         ∃ u, validateHop policy lk e.1 = .ok u)
    ∧ (∀ (fi : List Char → List (String × String) → FetchResponse)
         (lk : List Char → List IpAddr) (policy : FetchPolicy)
         (maxRedirects : Nat) (url : List Char)
         (headers : List (String × String)) (u : UrlParts)
         (loc : List Char) (e : GuardError),
         validateHop policy lk url = .ok u →
         fi url headers = .redirect loc →
         validateHop policy lk (resolveLocation u loc) = .error e →
         resolveLocation u loc ≠ url →
         1 ≤ maxRedirects →
         fetchWithSsrFGuard fi lk policy maxRedirects url headers
           = (.error e, [(url, headers)])) := by
  constructor
  · intro fi lk policy maxR url headers e he
    exact guardLoop_trace_validated fi lk policy maxR url headers [url] []
      (fun e2 he2 => absurd he2 (List.not_mem_nil e2)) e he
  · intro fi lk policy maxR url headers u loc e hv hf hv2 hne hmax
    unfold fetchWithSsrFGuard
    rw [guardLoop_redirect hv hf]
    rw [if_neg (fun hm => hne (List.mem_singleton.mp hm))]
    cases maxR with
    | zero => exact absurd hmax (by omega)
    | succ n =>
      show guardLoop fi lk policy n _ _ _ _ = _
      rw [guardLoop_error hv2]
      rfl

/-- Concrete instance of C2: a two-hop chain whose second hop resolves via
the injected DNS to the cloud metadata address 169.254.169.254 is rejected
and the second hop is never fetched; the sole transport call was
validated. -/
theorem fetchGuard_revalidates_every_hop_witness :
    (∃ u, validateHop {}
        (fun h => if h = "hop2.attacker.example.com".data
          then [.v4 2852039166] else [.v4 1572395042])
        (("https://hop1.attacker.example.com/".data,
          ([] : List (String × String))).1) = .ok u)
    ∧ fetchWithSsrFGuard
        (fun u _ => if u = "https://hop1.attacker.example.com/".data
          then .redirect "https://hop2.attacker.example.com/latest/meta-data/".data
          else .ok)
        (fun h => if h = "hop2.attacker.example.com".data
          then [.v4 2852039166] else [.v4 1572395042])
        {} 5 "https://hop1.attacker.example.com/".data []
      = (.error .privateBlocked, [("https://hop1.attacker.example.com/".data, [])]) :=
  ⟨fetchGuard_revalidates_every_hop.1
      (fun u _ => if u = "https://hop1.attacker.example.com/".data
        then .redirect "https://hop2.attacker.example.com/latest/meta-data/".data
        else .ok)
      (fun h => if h = "hop2.attacker.example.com".data
        then [.v4 2852039166] else [.v4 1572395042])
      {} 5 "https://hop1.attacker.example.com/".data []
      ("https://hop1.attacker.example.com/".data, []) (by decide),
   fetchGuard_revalidates_every_hop.2
      (fun u _ => if u = "https://hop1.attacker.example.com/".data
        then .redirect "https://hop2.attacker.example.com/latest/meta-data/".data
        else .ok)
      (fun h => if h = "hop2.attacker.example.com".data
        then [.v4 2852039166] else [.v4 1572395042])
      {} 5 "https://hop1.attacker.example.com/".data []
      ⟨"https".data, "hop1.attacker.example.com".data, none, "/".data, none⟩
      "https://hop2.attacker.example.com/latest/meta-data/".data
      .privateBlocked rfl rfl rfl (by decide) (by omega)⟩

/-- C3: when the guard follows a redirect, the replayed request keeps the
headers unchanged on a same-origin target and strips exactly the
credential-bearing headers (Authorization, Proxy-Authorization, Cookie
family) on a cross-origin target: the stripped replay contains no sensitive
header and preserves every non-sensitive header. -/
theorem fetchGuard_redirect_headers :
    ∀ (fi : List Char → List (String × String) → FetchResponse)
      (lk : List Char → List IpAddr) (policy : FetchPolicy)
      (maxRedirects : Nat) (url : List Char)
      (headers : List (String × String)) (u u2 : UrlParts)
      (loc target : List Char),
      validateHop policy lk url = .ok u →
      fi url headers = .redirect loc →
      resolveLocation u loc = target →
      target ≠ url →
      validateHop policy lk target = .ok u2 →
      fi target (if sameOrigin url target then headers
                 else stripSensitiveHeaders headers) = .ok →
      1 ≤ maxRedirects →
      (fetchWithSsrFGuard fi lk policy maxRedirects url headers
        = (.ok (), [(url, headers),
            (target, if sameOrigin url target then headers
                     else stripSensitiveHeaders headers)]))
      ∧ (∀ kv ∈ stripSensitiveHeaders headers,
          asciiLower kv.1 ∉ SENSITIVE_HEADERS)
      ∧ (∀ kv ∈ headers, asciiLower kv.1 ∉ SENSITIVE_HEADERS →
          kv ∈ stripSensitiveHeaders headers) := by
  intro fi lk policy maxR url headers u u2 loc target hv hf hres hne hv2 hf2 hmax
  refine ⟨?_, ?_, ?_⟩
  · unfold fetchWithSsrFGuard
    rw [guardLoop_redirect hv hf, hres]
    rw [if_neg (fun hm => hne (List.mem_singleton.mp hm))]
    cases maxR with
    | zero => exact absurd hmax (by omega)
    | succ n =>
      show guardLoop fi lk policy n _ _ _ _ = _
      rw [guardLoop_ok hv2 hf2]
      rfl
  · intro kv hkv
    have h9 := List.of_mem_filter hkv
    simp only [Bool.not_eq_true'] at h9
    intro hmem
    have := (contains_true_iff _ _).mpr hmem
    rw [h9] at this
    exact absurd this (by decide)
  · intro kv hkv hns
    apply List.mem_filter.mpr
    refine ⟨hkv, ?_⟩
    simp only [Bool.not_eq_true']
    cases hc : SENSITIVE_HEADERS.contains (asciiLower kv.1) with
    | false => rfl
    | true => exact absurd ((contains_true_iff _ _).mp hc) hns

/-- Concrete instance of C3: a cross-origin redirect strips Authorization,
Proxy-Authorization, Cookie and Cookie2 while keeping X-Trace. -/
theorem fetchGuard_redirect_headers_witness :
    fetchWithSsrFGuard
        (fun u _ => if u = "https://api.example.com/start".data
          then .redirect "https://cdn.example.com/asset".data else .ok)
        (fun _ => [.v4 1572395042]) {} 5 "https://api.example.com/start".data
        [("Authorization", "Bearer secret"),
         ("Proxy-Authorization", "Basic c2VjcmV0"),
         ("Cookie", "session=abc"), ("Cookie2", "legacy=1"), ("X-Trace", "1")]
      = (.ok (),
         [("https://api.example.com/start".data,
           [("Authorization", "Bearer secret"),
            ("Proxy-Authorization", "Basic c2VjcmV0"),
            ("Cookie", "session=abc"), ("Cookie2", "legacy=1"),
            ("X-Trace", "1")]),
          ("https://cdn.example.com/asset".data, [("X-Trace", "1")])]) := by
  have h := (fetchGuard_redirect_headers
    (fun u _ => if u = "https://api.example.com/start".data
      then .redirect "https://cdn.example.com/asset".data else .ok)
    (fun _ => [.v4 1572395042]) {} 5 "https://api.example.com/start".data
    [("Authorization", "Bearer secret"),
     ("Proxy-Authorization", "Basic c2VjcmV0"),
     ("Cookie", "session=abc"), ("Cookie2", "legacy=1"), ("X-Trace", "1")]
    ⟨"https".data, "api.example.com".data, none, "/start".data, none⟩
    ⟨"https".data, "cdn.example.com".data, none, "/asset".data, none⟩
    "https://cdn.example.com/asset".data "https://cdn.example.com/asset".data
    rfl rfl rfl (by decide) rfl rfl (by omega)).1
  rw [h]
  rfl

theorem resolveLocation_abs {u : UrlParts} {loc : List Char}
    (h : ∀ rest, loc ≠ '/' :: rest) : resolveLocation u loc = loc := by
  unfold resolveLocation
  split
  · rename_i rest
    exact absurd rfl (h rest)
  · rfl

theorem ne_cons_of_head {a : Char} {l : List Char}
    (h : l.head? ≠ some a) : ∀ rest, l ≠ a :: rest := by
  intro rest hcon
  rw [hcon] at h
  exact h rfl

theorem guardLoop_limit_chain
    (fi : List Char → List (String × String) → FetchResponse)
    (lk : List Char → List IpAddr) (policy : FetchPolicy)
    (urls : Nat → List Char) (maxR : Nat)
    (hval : ∀ i, i ≤ maxR → ∃ u, validateHop policy lk (urls i) = .ok u)
    (hred : ∀ i h, i ≤ maxR → fi (urls i) h = .redirect (urls (i + 1)))
    (habs : ∀ i, i ≤ maxR → ∀ rest, urls (i + 1) ≠ '/' :: rest)
    (hinj : ∀ i j, i ≤ maxR + 1 → j ≤ maxR + 1 → i ≠ j →
      urls i ≠ urls j) :
    ∀ (fuel k : Nat) (headers : List (String × String))
      (visited : List (List Char))
      (trace : List (List Char × List (String × String))),
      fuel + k = maxR →
      (∀ v ∈ visited, ∃ j, j ≤ k ∧ urls j = v) →
      (guardLoop fi lk policy fuel (urls k) headers visited trace).1
          = .error .redirectLimit
        ∧ (guardLoop fi lk policy fuel (urls k) headers visited
            trace).2.length = trace.length + fuel + 1 := by
  intro fuel
  induction fuel with
  | zero =>
    intro k headers visited trace hfk hvis
    have hk : k ≤ maxR := by omega
    obtain ⟨u, hu⟩ := hval k hk
    rw [guardLoop_redirect hu (hred k headers hk),
      resolveLocation_abs (habs k hk)]
    have hnm : urls (k + 1) ∉ visited := by
      intro hm
      obtain ⟨j, hj, hje⟩ := hvis (urls (k + 1)) hm
      exact hinj (k + 1) j (by omega) (by omega) (by omega) hje.symm
    rw [if_neg hnm]
    refine ⟨rfl, ?_⟩
    show (trace ++ [(urls k, headers)]).length = trace.length + 0 + 1
    rw [List.length_append]
    rfl
  | succ n ih =>
    intro k headers visited trace hfk hvis
    have hk : k ≤ maxR := by omega
    obtain ⟨u, hu⟩ := hval k hk
    rw [guardLoop_redirect hu (hred k headers hk),
      resolveLocation_abs (habs k hk)]
    have hnm : urls (k + 1) ∉ visited := by
      intro hm
      obtain ⟨j, hj, hje⟩ := hvis (urls (k + 1)) hm
      exact hinj (k + 1) j (by omega) (by omega) (by omega) hje.symm
    rw [if_neg hnm]
    have hrec := ih (k + 1)
      (if sameOrigin (urls k) (urls (k + 1)) then headers
       else stripSensitiveHeaders headers)
      (urls (k + 1) :: visited) (trace ++ [(urls k, headers)])
      (by omega)
      (by
        intro v hv
        rcases List.mem_cons.mp hv with h | h
        · exact ⟨k + 1, by omega, h.symm⟩
        · obtain ⟨j, hj, hje⟩ := hvis v h
          exact ⟨j, by omega, hje⟩)
    refine ⟨hrec.1, ?_⟩
    show (guardLoop fi lk policy n (urls (k + 1)) _ _ _).2.length
      = trace.length + (n + 1) + 1
    rw [hrec.2, List.length_append]
    simp
    omega

/-- C4: the guard tracks visited URLs across the whole chain and fails with
two distinguishable terminal errors: a chain that revisits a URL (A→B→A)
rejects with the redirect-loop error after fetching exactly A and B, while
a chain of pairwise-distinct URLs longer than the redirect budget rejects
with the distinct redirect-limit error after exactly `maxRedirects + 1`
transport calls — and the two errors differ. -/
theorem fetchGuard_loop_vs_limit :
    (∀ (fi : List Char → List (String × String) → FetchResponse)
       (lk : List Char → List IpAddr) (policy : FetchPolicy)
       (maxRedirects : Nat) (urlA urlB : List Char)
       (headers : List (String × String)) (uA uB : UrlParts),
       validateHop policy lk urlA = .ok uA →
       validateHop policy lk urlB = .ok uB →
       (∀ h, fi urlA h = .redirect urlB) →
       (∀ h, fi urlB h = .redirect urlA) →
       (∀ rest, urlA ≠ '/' :: rest) →
       (∀ rest, urlB ≠ '/' :: rest) →
       urlB ≠ urlA →
       2 ≤ maxRedirects →
       (fetchWithSsrFGuard fi lk policy maxRedirects urlA headers).1
           = .error .redirectLoop
         ∧ (fetchWithSsrFGuard fi lk policy maxRedirects urlA
             headers).2.map Prod.fst = [urlA, urlB])
    ∧ (∀ (fi : List Char → List (String × String) → FetchResponse)
         (lk : List Char → List IpAddr) (policy : FetchPolicy)
         (maxRedirects : Nat) (urls : Nat → List Char)
         (headers : List (String × String)),
         (∀ i, i ≤ maxRedirects →
           ∃ u, validateHop policy lk (urls i) = .ok u) →
         (∀ i h, i ≤ maxRedirects →
           fi (urls i) h = .redirect (urls (i + 1))) →
         (∀ i, i ≤ maxRedirects → ∀ rest, urls (i + 1) ≠ '/' :: rest) →
         (∀ i j, i ≤ maxRedirects + 1 → j ≤ maxRedirects + 1 → i ≠ j →
           urls i ≠ urls j) →
         (fetchWithSsrFGuard fi lk policy maxRedirects (urls 0) headers).1
             = .error .redirectLimit
           ∧ (fetchWithSsrFGuard fi lk policy maxRedirects (urls 0)
               headers).2.length = maxRedirects + 1)
    ∧ GuardError.redirectLoop ≠ GuardError.redirectLimit := by
  refine ⟨?_, ?_, by decide⟩
  · intro fi lk policy maxR urlA urlB headers uA uB hvA hvB hfA hfB habsA
      habsB hne hmax
    unfold fetchWithSsrFGuard
    rw [guardLoop_redirect hvA (hfA headers), resolveLocation_abs habsB]
    rw [if_neg (fun hm => hne (List.mem_singleton.mp hm))]
    cases maxR with
    | zero => exact absurd hmax (by omega)
    | succ n =>
      have hstep : (guardLoop fi lk policy n urlB
          (if sameOrigin urlA urlB then headers
           else stripSensitiveHeaders headers)
          (urlB :: [urlA]) ([] ++ [(urlA, headers)]))
          = (.error .redirectLoop,
             ([] ++ [(urlA, headers)])
               ++ [(urlB, if sameOrigin urlA urlB then headers
                          else stripSensitiveHeaders headers)]) := by
        rw [guardLoop_redirect hvB (hfB _), resolveLocation_abs habsA]
        rw [if_pos (by simp)]
      show (guardLoop fi lk policy n urlB _ _ _).1 = _
        ∧ (guardLoop fi lk policy n urlB _ _ _).2.map Prod.fst = _
      rw [hstep]
      exact ⟨rfl, rfl⟩
  · intro fi lk policy maxR urls headers hval hred habs hinj
    have := guardLoop_limit_chain fi lk policy urls maxR hval hred habs hinj
      maxR 0 headers [urls 0] []
      (by omega)
      (by intro v hv; exact ⟨0, by omega, (List.mem_singleton.mp hv).symm⟩)
    unfold fetchWithSsrFGuard
    refine ⟨this.1, ?_⟩
    rw [this.2]
    simp

theorem fetchGuard_loop_vs_limit_witness :
    ((fetchWithSsrFGuard
        (fun u _ => if u = "https://a.example.com/x".data
          then FetchResponse.redirect "https://b.example.com/x".data
          else FetchResponse.redirect "https://a.example.com/x".data)
        (fun _ => [IpAddr.v4 1572395042]) {} 5
        "https://a.example.com/x".data []).1 = .error .redirectLoop
      ∧ (fetchWithSsrFGuard
          (fun u _ => if u = "https://a.example.com/x".data
            then FetchResponse.redirect "https://b.example.com/x".data
            else FetchResponse.redirect "https://a.example.com/x".data)
          (fun _ => [IpAddr.v4 1572395042]) {} 5
          "https://a.example.com/x".data []).2.map Prod.fst
        = ["https://a.example.com/x".data, "https://b.example.com/x".data])
    ∧ ((fetchWithSsrFGuard
        (fun u _ => if u = "https://c0.example.com/".data
          then FetchResponse.redirect "https://c1.example.com/".data
          else if u = "https://c1.example.com/".data
          then FetchResponse.redirect "https://c2.example.com/".data
          else FetchResponse.redirect "https://c3.example.com/".data)
        (fun _ => [IpAddr.v4 1572395042]) {} 2
        "https://c0.example.com/".data []).1 = .error .redirectLimit
      ∧ (fetchWithSsrFGuard
          (fun u _ => if u = "https://c0.example.com/".data
            then FetchResponse.redirect "https://c1.example.com/".data
            else if u = "https://c1.example.com/".data
            then FetchResponse.redirect "https://c2.example.com/".data
            else FetchResponse.redirect "https://c3.example.com/".data)
          (fun _ => [IpAddr.v4 1572395042]) {} 2
          "https://c0.example.com/".data []).2.length = 2 + 1) := by
  constructor
  · exact fetchGuard_loop_vs_limit.1
      (fun u _ => if u = "https://a.example.com/x".data
        then FetchResponse.redirect "https://b.example.com/x".data
        else FetchResponse.redirect "https://a.example.com/x".data)
      (fun _ => [IpAddr.v4 1572395042]) {} 5
      "https://a.example.com/x".data "https://b.example.com/x".data []
      ⟨"https".data, "a.example.com".data, none, "/x".data, none⟩
      ⟨"https".data, "b.example.com".data, none, "/x".data, none⟩
      rfl rfl (fun _ => rfl) (fun _ => rfl)
      (fun rest => ne_cons_of_head (by decide) rest)
      (fun rest => ne_cons_of_head (by decide) rest)
      (by decide) (by omega)
  · exact fetchGuard_loop_vs_limit.2.1
      (fun u _ => if u = "https://c0.example.com/".data
        then FetchResponse.redirect "https://c1.example.com/".data
        else if u = "https://c1.example.com/".data
        then FetchResponse.redirect "https://c2.example.com/".data
        else FetchResponse.redirect "https://c3.example.com/".data)
      (fun _ => [IpAddr.v4 1572395042]) {} 2
      (fun i => if i = 0 then "https://c0.example.com/".data
        else if i = 1 then "https://c1.example.com/".data
        else if i = 2 then "https://c2.example.com/".data
        else "https://c3.example.com/".data) []
      (by intro i hi; interval_cases i <;> exact ⟨_, rfl⟩)
      (by intro i hs hi; interval_cases i <;> rfl)
      (by intro i hi; interval_cases i <;>
        exact fun rest => ne_cons_of_head (by decide) rest)
      (by intro i j hi hj hij; interval_cases i <;> interval_cases j <;>
        first
        | exact absurd rfl hij
        | decide)

/-! ### Skill scanner: the computed-require rule -/

/-- Modelled from the spec: a character that may appear in a JavaScript
identifier. -/
def isIdentChar (c : Char) : Bool := c.isAlphanum || c = '_' || c = '$'

/-- Modelled from the spec: a bare identifier token (a variable name used as
a dynamic module specifier). -/
def isIdentifierTok (cs : List Char) : Bool :=
  match cs with
  | [] => false
  | c :: rest => (c.isAlpha || c = '_' || c = '$') && rest.all isIdentChar

/-- Modelled from the spec: a single complete double-quoted string literal,
with no unescaped quote in its body. -/
def isStringLiteralTok (cs : List Char) : Bool :=
  match cs with
  | [] => false
  | c :: rest =>
    c = '"' && rest.getLast? = some '"' && !(rest.dropLast.contains '"')

/-- Modelled from the spec: strip leading and trailing spaces from a token. -/
def trimSpaces (cs : List Char) : List Char :=
  ((cs.dropWhile fun c => c = ' ').reverse.dropWhile fun c => c = ' ').reverse

/-- Modelled from the spec: the characters up to the closing parenthesis of
the call, or `none` when the call is never closed. -/
def takeUntilClose : List Char → Option (List Char)
  | [] => none
  | c :: rest =>
    if c = ')' then some []
    else (takeUntilClose rest).map fun tl => c :: tl

/-- Modelled from the spec: scan a source line for a `require(` call and
extract its raw argument text. -/
def extractRequireArg : List Char → Option (List Char)
  | [] => none
  | c :: rest =>
    if ("require(".data).isPrefixOf (c :: rest) then
      takeUntilClose ((c :: rest).drop 8)
    else extractRequireArg rest

/-- Modelled from the spec: the computed-require rule fires exactly when a
`require(...)` call is present and its trimmed argument is not a single
complete string literal (i.e. the module specifier is non-literal). -/
def computedRequireFires (line : List Char) : Bool :=
  match extractRequireArg line with
  | none => false
  | some arg => !isStringLiteralTok (trimSpaces arg)

/-- C9: the computed-require rule never fires on a require call whose
argument is a single string literal, and always fires when the argument is a
bare identifier (a variable) or a concatenation of two string literals. -/
theorem computedRequire_literal_vs_dynamic :
    (∀ line arg, extractRequireArg line = some arg →
      isStringLiteralTok (trimSpaces arg) = true →
      computedRequireFires line = false)
    ∧ (∀ line arg, extractRequireArg line = some arg →
      isIdentifierTok (trimSpaces arg) = true →
      computedRequireFires line = true)
    ∧ (∀ line arg l₁ l₂, extractRequireArg line = some arg →
      trimSpaces arg
        = '"' :: (l₁ ++ ['"'] ++
            (' ' :: '+' :: ' ' :: (('"' :: l₂) ++ ['"']))) →
      computedRequireFires line = true) := by
  refine ⟨?_, ?_, ?_⟩
  · intro line arg hx hlit
    unfold computedRequireFires
    rw [hx]
    dsimp only
    rw [hlit]
    rfl
  · intro line arg hx hid
    unfold computedRequireFires
    rw [hx]
    dsimp only
    cases htrim : trimSpaces arg with
    | nil =>
      rw [htrim] at hid
      exact absurd hid (by simp [isIdentifierTok])
    | cons c rest =>
      rw [htrim] at hid
      unfold isIdentifierTok at hid
      simp only [Bool.and_eq_true, Bool.or_eq_true, decide_eq_true_eq] at hid
      have hcne : c ≠ '"' := by
        intro hc
        subst hc
        rcases hid.1 with h | h | h
        all_goals exact absurd h (by decide)
      simp [isStringLiteralTok, hcne]
  · intro line arg l₁ l₂ hx hshape
    unfold computedRequireFires
    rw [hx]
    dsimp only
    rw [hshape]
    unfold isStringLiteralTok
    dsimp only
    have hsplit : l₁ ++ ['"'] ++ (' ' :: '+' :: ' ' :: (('"' :: l₂) ++ ['"']))
        = (l₁ ++ ('"' :: ' ' :: '+' :: ' ' :: '"' :: l₂)).concat '"' := by
      simp [List.concat_eq_append]
    have hcont :
        (l₁ ++ ('"' :: ' ' :: '+' :: ' ' :: '"' :: l₂)).contains '"'
          = true := by
      simp
    rw [hsplit]
    simp [List.getLast?_concat, List.dropLast_concat, hcont]

theorem computedRequire_literal_vs_dynamic_witness :
    computedRequireFires "const fs = require(\"node:fs\");".data = false
    ∧ computedRequireFires "const mod = require(modulePath);".data = true
    ∧ computedRequireFires
        "const cp = require(\"child\" + \"_process\");".data = true := by
  refine ⟨?_, ?_, ?_⟩
  · exact computedRequire_literal_vs_dynamic.1
      "const fs = require(\"node:fs\");".data "\"node:fs\"".data rfl (by decide)
  · exact computedRequire_literal_vs_dynamic.2.1
      "const mod = require(modulePath);".data "modulePath".data rfl (by decide)
  · exact computedRequire_literal_vs_dynamic.2.2
      "const cp = require(\"child\" + \"_process\");".data
      "\"child\" + \"_process\"".data "child".data "_process".data rfl
      (by decide)

end ChronoClaw
